import Mathlib

/-!
# Replication log of latest values — shallow embedding

This file embeds the replication log of the storage-manager plugin
(`plugins/zenoh-plugin-storage-manager/src/replication/log.rs`) together with
the classification / configuration / digest companions it relies on, and
proves the main functional properties of `LogLatest`: per-key uniqueness,
Bloom-filter soundness, last-writer-wins convergence of `insert_event`,
out-of-bound handling, idempotent re-insertion, the shape of the three-era
digest, the event fingerprint byte layout and the Bloom sizing.

Machine integers (`u64`, `u128`) are embedded as `Nat`; byte strings as
`List Nat`; `BTreeMap` as an association list with strictly increasing keys
(iteration in ascending key order, `rev()` as `List.reverse`); `HashMap` as
an association list.  The `OwnedKeyExpr` of a key expression only enters the
development through its byte string, so a key is `Option (List Nat)` (`None`
is the prefix-stripped key).
-/

namespace Zenoh

/-- A (possibly prefix-stripped) key expression, reduced to its bytes.
`none` is the key that the storage prefix stripped down to nothing. -/
abbrev Key := Option (List Nat)

/-- Hybrid logical clock timestamp: `(time : u64 NTP64, node_id : u128)`,
totally ordered lexicographically by `(time, node_id)`.  `time` is kept as an
unbounded `Nat`; values beyond `u64` bounds are exactly the ones the
classification rejects as out of bound. -/
structure Timestamp where
  time : Nat
  node_id : Nat
deriving DecidableEq

/-- Strict lexicographic order on `(time, node_id)`, the order used by the
`PartialOrd`/`Ord` implementation of `uhlc::Timestamp`. -/
def Timestamp.lt (a b : Timestamp) : Bool :=
  a.time < b.time || (a.time == b.time && a.node_id < b.node_id)

/-- `SampleKind`: the action of a publication. -/
inductive SampleKind where
  | put
  | delete
deriving DecidableEq

/-- Little-endian byte string of `n` on `w` bytes (`to_le_bytes`). -/
def leBytes : Nat → Nat → List Nat
  | 0, _ => []
  | w + 1, n => (n % 256) :: leBytes w (n / 256)

/-- Value of a little-endian byte string (inverse of `leBytes`). -/
def fromLeBytes : List Nat → Nat
  | [] => 0
  | b :: bs => b + 256 * fromLeBytes bs

/-- Modelled from the spec: the streaming state of the external
`xxhash_rust::xxh3::Xxh3` hasher (default seed).  The hasher is abstracted as
the byte sequence accumulated by `update`; `digest` applies an arbitrary hash
function `H` standing for xxh3-64 with the default seed. -/
structure Xxh3 where
  acc : List Nat

/-- `Xxh3::default()`: fresh hasher, empty accumulated input. -/
def Xxh3.dflt : Xxh3 := ⟨[]⟩

/-- `Xxh3::update`: feed bytes to the hasher. -/
def Xxh3.update (h : Xxh3) (bytes : List Nat) : Xxh3 := ⟨h.acc ++ bytes⟩

/-- `Xxh3::digest`, with the xxh3-64 function abstracted as `H`. -/
def Xxh3.digest (h : Xxh3) (H : List Nat → Nat) : Nat := H h.acc

/-- An `Event` records a publication on a key expression at a timestamp
(log.rs).  The fingerprint is computed once, at construction. -/
structure Event where
  maybe_stripped_key : Key
  timestamp : Timestamp
  action : SampleKind
  fingerprint : Nat
deriving DecidableEq

/-- `Event::key_expr` (log.rs). -/
def Event.key_expr (e : Event) : Key := e.maybe_stripped_key

/-- `Event::new` (log.rs): hash the key-expression bytes (if any), then the
8 little-endian bytes of the time, then the 16 little-endian bytes of the
node id; `H` abstracts xxh3-64 with the default seed. -/
def Event.new (H : List Nat → Nat) (key_expr : Key) (timestamp : Timestamp)
    (action : SampleKind) : Event :=
  let hasher := Xxh3.dflt
  let hasher := match key_expr with
    | some k => hasher.update k
    | none => hasher
  let hasher := hasher.update (leBytes 8 timestamp.time)
  let hasher := hasher.update (leBytes 16 timestamp.node_id)
  { maybe_stripped_key := key_expr
    timestamp := timestamp
    action := action
    fingerprint := hasher.digest H }

/-- `EventInsertion` (log.rs): outcome of `LogLatest::insert_event`. -/
inductive EventInsertion where
  | New (event : Event)
  | ReplacedOlder (event : Event)
  | NotInsertedAsOlder
  | NotInsertedAsOutOfBound
deriving DecidableEq

/-- Modelled from the spec: `EventRemoval` (classification.rs, not in the
excerpt), the outcome of `if_newer_remove_older`. -/
inductive EventRemoval where
  | RemovedOlder (event : Event)
  | KeptNewer
  | NotFound
deriving DecidableEq

/-- Modelled from the spec: a `SubInterval` (classification.rs, not in the
excerpt) holds a `HashMap<Option<OwnedKeyExpr>, Event>` — embedded as the
list of stored events, keyed by their own key expression — plus the cached
XOR fingerprint. -/
structure SubInterval where
  events : List Event
  fingerprint : Nat
deriving DecidableEq

instance : Inhabited SubInterval := ⟨⟨[], 0⟩⟩

/-- Modelled from the spec: `SubInterval::lookup`. -/
def SubInterval.lookup (si : SubInterval) (k : Key) : Option Event :=
  si.events.find? (fun e => e.maybe_stripped_key == k)

/-- Modelled from the spec: `SubInterval::insert_unchecked` — presumes no
conflicting key is present, inserts the event and XORs its fingerprint into
the cached fingerprint. -/
def SubInterval.insert_unchecked (si : SubInterval) (e : Event) : SubInterval :=
  { events := e :: si.events
    fingerprint := si.fingerprint ^^^ e.fingerprint }

/-- Modelled from the spec: `SubInterval::if_newer_remove_older` — `NotFound`
when no event has this key; `KeptNewer` when the stored event's timestamp is
`≥ ts` (equal timestamps never replace); otherwise remove the stored event,
XOR its fingerprint out, and return it as `RemovedOlder`. -/
def SubInterval.if_newer_remove_older (si : SubInterval) (k : Key)
    (ts : Timestamp) : SubInterval × EventRemoval :=
  match si.events.find? (fun e => e.maybe_stripped_key == k) with
  | none => (si, .NotFound)
  | some c =>
    if Timestamp.lt c.timestamp ts then
      ({ events := si.events.filter (fun e => !(e.maybe_stripped_key == k))
         fingerprint := si.fingerprint ^^^ c.fingerprint }, .RemovedOlder c)
    else (si, .KeptNewer)

/-- `BTreeMap` entry-or-default-then-modify, on an association list with
strictly increasing keys: `map.entry(k).or_default()` then `f`. -/
def alistModify {β : Type} (dflt : β) (f : β → β) (k : Nat) :
    List (Nat × β) → List (Nat × β)
  | [] => [(k, f dflt)]
  | (k', v) :: rest =>
    if k < k' then (k, f dflt) :: (k', v) :: rest
    else if k = k' then (k', f v) :: rest
    else (k', v) :: alistModify dflt f k rest

/-- One pass of the newest-to-oldest scans of log.rs / classification.rs:
`step` each element of the (descending) list, stop at the first
`RemovedOlder` or `KeptNewer`, keep going on `NotFound`. -/
def scanDesc {α : Type} (step : α → α × EventRemoval) :
    List (Nat × α) → List (Nat × α) × EventRemoval
  | [] => ([], .NotFound)
  | (i, x) :: rest =>
    let s := step x
    match s.2 with
    | .NotFound =>
      let t := scanDesc step rest
      ((i, s.1) :: t.1, t.2)
    | r => ((i, s.1) :: rest, r)

/-- Modelled from the spec: an `Interval` (classification.rs, not in the
excerpt) holds a `BTreeMap<SubIntervalIdx, SubInterval>` plus the cached XOR
fingerprint. -/
structure Interval where
  sub_intervals : List (Nat × SubInterval)
  fingerprint : Nat
deriving DecidableEq

instance : Inhabited Interval := ⟨⟨[], 0⟩⟩

/-- All events stored in an interval. -/
def Interval.events (iv : Interval) : List Event :=
  (iv.sub_intervals.map (fun p => p.2.events)).flatten

/-- Modelled from the spec: `Interval::lookup` — scan the sub-intervals from
newest to oldest, return the first hit. -/
def Interval.lookup (iv : Interval) (k : Key) : Option Event :=
  iv.sub_intervals.reverse.findSome? (fun p => p.2.lookup k)

/-- Modelled from the spec: `Interval::if_newer_remove_older` — iterate the
sub-intervals from newest to oldest, stopping at the first `RemovedOlder` or
`KeptNewer`; on removal, XOR the removed fingerprint out of the interval's
cached fingerprint. -/
def Interval.if_newer_remove_older (iv : Interval) (k : Key) (ts : Timestamp) :
    Interval × EventRemoval :=
  let t := scanDesc (fun si => si.if_newer_remove_older k ts)
    iv.sub_intervals.reverse
  let fp := match t.2 with
    | .RemovedOlder old => iv.fingerprint ^^^ old.fingerprint
    | _ => iv.fingerprint
  ({ sub_intervals := t.1.reverse, fingerprint := fp }, t.2)

/-- Modelled from the spec: `Interval::insert_unchecked` — route the event to
its sub-interval (created if absent), XOR its fingerprint into the interval's
cached fingerprint. -/
def Interval.insert_unchecked (iv : Interval) (sub_idx : Nat) (e : Event) :
    Interval :=
  { sub_intervals :=
      alistModify default (fun si => si.insert_unchecked e) sub_idx
        iv.sub_intervals
    fingerprint := iv.fingerprint ^^^ e.fingerprint }

/-- Modelled from the spec: `Interval::sub_intervals_fingerprints` — snapshot
of the per-sub-interval fingerprints, omitting empty sub-intervals
(fingerprint 0). -/
def Interval.sub_intervals_fingerprints (iv : Interval) : List (Nat × Nat) :=
  iv.sub_intervals.filterMap
    (fun p => if p.2.fingerprint == 0 then none else some (p.1, p.2.fingerprint))

/-- `u64::MAX`. -/
def u64Max : Nat := 2 ^ 64 - 1

/-- Modelled from the spec: `ReplicaConfig` (zenoh-backend-traits, not in the
excerpt).  Durations are in nanoseconds. -/
structure ReplicaConfig where
  interval_duration : Nat
  sub_intervals : Nat
  hot_era_size : Nat
  warm_era_size : Nat
  propagation_delay : Nat
deriving DecidableEq

/-- Modelled from the spec: the `Configuration` (configuration.rs, not in the
excerpt).  The epoch is captured from the clock at creation in the source and
is an explicit field here; `pfx` is the optional stripped prefix. -/
structure Configuration where
  storage_key_expr : List Nat
  pfx : Key
  replica_config : ReplicaConfig
  epoch : Nat
deriving DecidableEq

/-- Modelled from the spec: `Configuration::new`. -/
def Configuration.new (storage_key_expr : List Nat) (pfx : Key)
    (replica_config : ReplicaConfig) (epoch : Nat) : Configuration :=
  { storage_key_expr := storage_key_expr
    pfx := pfx
    replica_config := replica_config
    epoch := epoch }

/-- Modelled from the spec: the canonical byte serialization the
configuration fingerprint hashes — storage key, prefix if present, then the
numeric parameters in fixed order, little endian. -/
def Configuration.canonicalBytes (c : Configuration) : List Nat :=
  c.storage_key_expr
    ++ (match c.pfx with | some p => p | none => [])
    ++ leBytes 8 c.replica_config.interval_duration
    ++ leBytes 4 c.replica_config.sub_intervals
    ++ leBytes 8 c.replica_config.hot_era_size
    ++ leBytes 8 c.replica_config.warm_era_size
    ++ leBytes 8 c.replica_config.propagation_delay

/-- Modelled from the spec: `Configuration::fingerprint` — xxh3-64 (again
abstracted as `H`) of the canonical serialization. -/
def Configuration.fingerprint (c : Configuration) (H : List Nat → Nat) : Nat :=
  H c.canonicalBytes

/-- Modelled from the spec: `Configuration::get_time_classification` —
`idx = (time − epoch) / interval_duration`, failing with `OutOfBound` when
the index would exceed `u64::MAX`; the sub-interval index partitions the
interval into `sub_intervals` slices. -/
def Configuration.get_time_classification (c : Configuration)
    (ts : Timestamp) : Except String (Nat × Nat) :=
  let offs := ts.time - c.epoch
  let idx := offs / c.replica_config.interval_duration
  if u64Max < idx then .error "OutOfBound"
  else
    .ok (idx,
      (offs % c.replica_config.interval_duration) * c.replica_config.sub_intervals
        / c.replica_config.interval_duration)

/-- Modelled from the spec: `hot_era_lower_bound(upper) = upper − hot_era_size
+ 1`, saturating at 0. -/
def Configuration.hot_era_lower_bound (c : Configuration) (upper : Nat) : Nat :=
  upper + 1 - c.replica_config.hot_era_size

/-- Modelled from the spec: `warm_era_lower_bound(upper) =
hot_era_lower_bound(upper) − warm_era_size`, saturating at 0. -/
def Configuration.warm_era_lower_bound (c : Configuration) (upper : Nat) : Nat :=
  c.hot_era_lower_bound upper - c.replica_config.warm_era_size

/-- Modelled from the spec: the external `bloomfilter::Bloom` over keys.  The
filter is embedded by the exact set of keys whose bits have been set (a Bloom
filter has no false negatives; false positives only cause extra —
authoritative — interval scans and are not modelled).  The constructor
arguments are recorded so that the sizing is observable. -/
structure Bloom where
  capacity : Nat
  fp_rate : Rat
  keys : List Key
deriving DecidableEq

/-- Modelled from the spec: `Bloom::new_for_fp_rate`. -/
def Bloom.new_for_fp_rate (items : Nat) (rate : Rat) : Bloom :=
  { capacity := items, fp_rate := rate, keys := [] }

/-- Modelled from the spec: `Bloom::check`. -/
def Bloom.check (b : Bloom) (k : Key) : Bool := b.keys.contains k

/-- Modelled from the spec: `Bloom::set` — setting the bits of a key already
present changes nothing. -/
def Bloom.set (b : Bloom) (k : Key) : Bloom :=
  if b.keys.contains k then b else { b with keys := k :: b.keys }

/-- `LogLatest` (log.rs): the configuration, the `BTreeMap<IntervalIdx,
Interval>` and the Bloom filter over key expressions. -/
structure LogLatest where
  configuration : Configuration
  intervals : List (Nat × Interval)
  bloom_filter_event : Bloom
deriving DecidableEq

/-- `LogLatest::new` (log.rs): empty interval map and a Bloom filter sized
`2 << 22` items at a 0.01 false-positive rate.  The epoch the source captures
from the clock inside `Configuration::new` is an explicit argument here. -/
def LogLatest.new (storage_key_expr : List Nat) (pfx : Key)
    (replica_config : ReplicaConfig) (epoch : Nat) : LogLatest :=
  { configuration := Configuration.new storage_key_expr pfx replica_config epoch
    intervals := []
    bloom_filter_event := Bloom.new_for_fp_rate (2 <<< 22) (0.01 : Rat) }

/-- All events stored in the log, across all intervals and sub-intervals. -/
def LogLatest.storedEvents (log : LogLatest) : List Event :=
  (log.intervals.map (fun p => p.2.events)).flatten

/-- `LogLatest::lookup` (log.rs): Bloom check first — a miss is authoritative
— then scan the intervals from newest to oldest and return the first hit. -/
def LogLatest.lookup (log : LogLatest) (stripped_key : Key) : Option Event :=
  if log.bloom_filter_event.check stripped_key then
    log.intervals.reverse.findSome? (fun p => p.2.lookup stripped_key)
  else none

/-- `LogLatest::insert_event` (log.rs).  Returns the updated log paired with
the `EventInsertion` outcome (the source mutates `&mut self`).  If the Bloom
filter reports the key, scan the intervals from newest to oldest with
`if_newer_remove_older`, returning `NotInsertedAsOlder` on `KeptNewer` and
remembering a removed older event; then classify the timestamp, returning
`NotInsertedAsOutOfBound` (without touching the Bloom filter) on error;
finally set the Bloom bit and insert the event in its sub-interval. -/
def LogLatest.insert_event (log : LogLatest) (event : Event) :
    LogLatest × EventInsertion :=
  let scanned :=
    if log.bloom_filter_event.check event.key_expr then
      let t := scanDesc
        (fun iv => iv.if_newer_remove_older event.key_expr event.timestamp)
        log.intervals.reverse
      (t.1.reverse, t.2)
    else (log.intervals, EventRemoval.NotFound)
  match scanned with
  | (intervals1, .KeptNewer) =>
    ({ log with intervals := intervals1 }, .NotInsertedAsOlder)
  | (intervals1, scanRes) =>
    let result := match scanRes with
      | .RemovedOlder old => EventInsertion.ReplacedOlder old
      | _ => EventInsertion.New event
    match log.configuration.get_time_classification event.timestamp with
    | .error _ =>
      ({ log with intervals := intervals1 }, .NotInsertedAsOutOfBound)
    | .ok (interval_idx, sub_interval_idx) =>
      ({ log with
         intervals :=
           alistModify default
             (fun iv => iv.insert_unchecked sub_interval_idx event)
             interval_idx intervals1
         bloom_filter_event := log.bloom_filter_event.set event.key_expr },
       result)

/-- `LogLatest::update` (log.rs): fold `insert_event` over the events,
discarding the outcomes. -/
def LogLatest.update (log : LogLatest) (events : List Event) : LogLatest :=
  events.foldl (fun l e => (l.insert_event e).1) log

/-- The `Digest` (digest.rs, shape from the spec): configuration fingerprint,
one XOR for the cold era, per-interval fingerprints for the warm era,
per-sub-interval fingerprints for the hot era. -/
structure Digest where
  configuration_fingerprint : Nat
  cold_era_fingerprint : Nat
  warm_era_fingerprints : List (Nat × Nat)
  hot_era_fingerprints : List (Nat × List (Nat × Nat))
deriving DecidableEq

/-- `LogLatest::digest_from` (log.rs): iterate the stored intervals with
index `≤ hot_era_upper_bound` in ascending order; XOR the cold-era interval
fingerprints, record the non-zero warm-era interval fingerprints, record the
per-sub-interval fingerprints of the hot-era intervals.  `H` abstracts the
xxh3-64 hash used by the configuration fingerprint. -/
def LogLatest.digest_from (log : LogLatest) (H : List Nat → Nat)
    (hot_era_upper_bound : Nat) : Digest :=
  let hot_era_lower_bound :=
    log.configuration.hot_era_lower_bound hot_era_upper_bound
  let warm_era_lower_bound :=
    log.configuration.warm_era_lower_bound hot_era_upper_bound
  let acc :=
    (log.intervals.filter (fun p => p.1 ≤ hot_era_upper_bound)).foldl
      (fun (acc : Nat × List (Nat × Nat) × List (Nat × List (Nat × Nat))) p =>
        if p.1 < warm_era_lower_bound then
          (acc.1 ^^^ p.2.fingerprint, acc.2.1, acc.2.2)
        else if p.1 < hot_era_lower_bound then
          if p.2.fingerprint ≠ 0 then
            (acc.1, acc.2.1 ++ [(p.1, p.2.fingerprint)], acc.2.2)
          else acc
        else
          (acc.1, acc.2.1, acc.2.2 ++ [(p.1, p.2.sub_intervals_fingerprints)]))
      (0, [], [])
  { configuration_fingerprint := log.configuration.fingerprint H
    cold_era_fingerprint := acc.1
    warm_era_fingerprints := acc.2.1
    hot_era_fingerprints := acc.2.2 }

/-! ## Derived notions used by the statements and proofs -/

/-- Number of stored events carrying the key `k`. -/
def cntK (k : Key) (es : List Event) : Nat :=
  es.countP (fun e => e.maybe_stripped_key == k)

/-- The events of an indexed list of containers, `f` extracting each
container's events. -/
def evJoin {β : Type} (f : β → List Event) (l : List (Nat × β)) : List Event :=
  (l.map (fun p => f p.2)).flatten

/-- The newest-to-oldest interval scan of `LogLatest::lookup`, isolated. -/
def intervalsFind (k : Key) (ivs : List (Nat × Interval)) : Option Event :=
  ivs.reverse.findSome? (fun p => p.2.lookup k)

/-- One last-writer-wins step: a strictly newer event replaces the current
survivor, anything else (including an equal timestamp) keeps it. -/
def stepOpt (cur : Option Event) (e : Event) : Option Event :=
  match cur with
  | none => some e
  | some c => if Timestamp.lt c.timestamp e.timestamp then some e else some c

/-- The last-writer-wins step restricted to the events of key `k`. -/
def survivorStep (k : Key) (cur : Option Event) (e : Event) : Option Event :=
  if e.maybe_stripped_key == k then stepOpt cur e else cur

/-- The survivor for key `k` after folding the events of `es` over `init`. -/
def survivorFrom (k : Key) (init : Option Event) (es : List Event) : Option Event :=
  es.foldl (survivorStep k) init

/-- Bloom soundness: every stored event's key has its Bloom bit set. -/
abbrev BloomSound (log : LogLatest) : Prop :=
  ∀ e ∈ log.storedEvents, log.bloom_filter_event.check e.maybe_stripped_key = true

/-- `true` iff the timestamp classification of `ts` succeeds (is not
`OutOfBound`). -/
def Configuration.classifiesOk (c : Configuration) (ts : Timestamp) : Bool :=
  match c.get_time_classification ts with
  | .ok _ => true
  | .error _ => false

/-- Closed form of the cold-era fingerprint of `digest_from`. -/
def coldOf (warmL : Nat) (l : List (Nat × Interval)) : Nat :=
  (l.filter (fun p => decide (p.1 < warmL))).foldl (fun a p => a ^^^ p.2.fingerprint) 0

/-- Closed form of the warm-era map of `digest_from`. -/
def warmOf (warmL hotL : Nat) (l : List (Nat × Interval)) : List (Nat × Nat) :=
  (l.filter (fun p =>
    decide (warmL ≤ p.1) && decide (p.1 < hotL) && decide (p.2.fingerprint ≠ 0))).map
    (fun p => (p.1, p.2.fingerprint))

/-- Closed form of the hot-era map of `digest_from`. -/
def hotOf (warmL hotL : Nat) (l : List (Nat × Interval)) : List (Nat × List (Nat × Nat)) :=
  (l.filter (fun p => decide (warmL ≤ p.1) && decide (hotL ≤ p.1))).map
    (fun p => (p.1, p.2.sub_intervals_fingerprints))

/-! ## Concrete sample data for witnesses and counterexamples

A configuration with 10ns intervals split in 2 sub-intervals, hot and warm
eras of 2 intervals, no propagation delay, epoch 0. -/

/-- Sample replica configuration. -/
def sampleReplicaConfig : ReplicaConfig :=
  { interval_duration := 10, sub_intervals := 2, hot_era_size := 2
    warm_era_size := 2, propagation_delay := 0 }

/-- A fresh sample log. -/
def sampleLog : LogLatest := LogLatest.new [115] none sampleReplicaConfig 0

/-- A put on key `"a"` at time 100. -/
def evA1 : Event := ⟨some [97], ⟨100, 1⟩, .put, 7⟩

/-- A put on key `"a"` at time 200 (interval 20). -/
def evA2 : Event := ⟨some [97], ⟨200, 1⟩, .put, 9⟩

/-- A delete on key `"a"` at the same timestamp as `evA1`. -/
def evAtie : Event := ⟨some [97], ⟨100, 1⟩, .delete, 8⟩

/-- An event on fresh key `"b"` whose timestamp classification overflows
`u64::MAX` (interval index `2 ^ 64`). -/
def evOobFresh : Event := ⟨some [98], ⟨2 ^ 64 * 10, 1⟩, .put, 15⟩

/-- An out-of-bound event on the occupied key `"a"`. -/
def evOobA : Event := ⟨some [97], ⟨2 ^ 64 * 10, 1⟩, .put, 17⟩

/-- The sample log after inserting `evA1` then `evA2`: key `"a"` lives in
interval 20 and interval 10 is left empty (fingerprint 0). -/
def sampleLog2 : LogLatest :=
  ((sampleLog.insert_event evA1).1.insert_event evA2).1

/-- A put on the prefix-stripped key `none` at time 100. -/
def evN1 : Event := ⟨none, ⟨100, 1⟩, .put, 3⟩

/-- A put on the prefix-stripped key `none` at time 200. -/
def evN2 : Event := ⟨none, ⟨200, 2⟩, .put, 4⟩

/-! ## Timestamp order -/

theorem Timestamp.lt_iff {a b : Timestamp} :
    Timestamp.lt a b = true ↔
      a.time < b.time ∨ (a.time = b.time ∧ a.node_id < b.node_id) := by
  simp [Timestamp.lt]

theorem Timestamp.lt_irrefl (a : Timestamp) : Timestamp.lt a a = false := by
  simp [Timestamp.lt]

theorem Timestamp.eq_of_not_lt_not_lt {a b : Timestamp}
    (h1 : Timestamp.lt a b = false) (h2 : Timestamp.lt b a = false) : a = b := by
  rw [Bool.eq_false_iff, Ne, Timestamp.lt_iff] at h1 h2
  cases a; cases b
  simp only [Timestamp.mk.injEq]
  simp only at h1 h2
  omega

theorem Timestamp.not_lt_trans {a b c : Timestamp}
    (h1 : Timestamp.lt a b = false) (h2 : Timestamp.lt b c = false) :
    Timestamp.lt a c = false := by
  rw [Bool.eq_false_iff, Ne, Timestamp.lt_iff] at h1 h2 ⊢
  omega

theorem Timestamp.not_lt_of_lt_of_not_lt {a b c : Timestamp}
    (h1 : Timestamp.lt a b = true) (h2 : Timestamp.lt c b = false) :
    Timestamp.lt c a = false := by
  rw [Timestamp.lt_iff] at h1
  rw [Bool.eq_false_iff, Ne, Timestamp.lt_iff] at h2 ⊢
  omega

/-! ## Bloom filter -/

theorem Bloom.check_iff {b : Bloom} {k : Key} : b.check k = true ↔ k ∈ b.keys := by
  simp [Bloom.check]

theorem Bloom.check_set_self {b : Bloom} {k : Key} : (b.set k).check k = true := by
  rw [Bloom.set]
  split
  · assumption
  · simp [Bloom.check]

theorem Bloom.check_set_of_ne {b : Bloom} {k k' : Key} (h : k' ≠ k) :
    (b.set k).check k' = b.check k' := by
  rw [Bloom.set]
  split
  · rfl
  · simp [Bloom.check, h]

theorem Bloom.check_set_mono {b : Bloom} {k k' : Key}
    (h : b.check k' = true) : (b.set k).check k' = true := by
  by_cases hk : k' = k
  · subst hk; exact Bloom.check_set_self
  · rw [Bloom.check_set_of_ne hk]; exact h

theorem Bloom.check_new (items : Nat) (rate : Rat) (k : Key) :
    (Bloom.new_for_fp_rate items rate).check k = false := by
  simp [Bloom.new_for_fp_rate, Bloom.check]

/-! ## Counting and membership helpers -/

theorem cntK_nil (k : Key) : cntK k [] = 0 := rfl

theorem cntK_cons (k : Key) (e : Event) (es : List Event) :
    cntK k (e :: es) =
      (if e.maybe_stripped_key = k then 1 else 0) + cntK k es := by
  simp only [cntK, List.countP_cons]
  by_cases h : e.maybe_stripped_key = k
  · simp [h]; omega
  · simp [h]

theorem cntK_append (k : Key) (l1 l2 : List Event) :
    cntK k (l1 ++ l2) = cntK k l1 + cntK k l2 :=
  List.countP_append _ l1 l2

theorem cntK_eq_zero {k : Key} {es : List Event} :
    cntK k es = 0 ↔ ∀ e ∈ es, e.maybe_stripped_key ≠ k := by
  simp [cntK, List.countP_eq_zero]

theorem cntK_pos_of_mem {k : Key} {es : List Event} {e : Event}
    (he : e ∈ es) (hk : e.maybe_stripped_key = k) : 1 ≤ cntK k es := by
  have : cntK k es ≠ 0 := by
    intro h0
    exact (cntK_eq_zero.1 h0) e he hk
  omega

theorem mem_eq_of_length_le_one {α : Type} {l : List α} (h : l.length ≤ 1)
    {a b : α} (ha : a ∈ l) (hb : b ∈ l) : a = b := by
  match l with
  | [] => cases ha
  | [x] =>
    rw [List.mem_singleton] at ha hb
    rw [ha, hb]
  | x :: y :: t => simp at h

theorem eq_of_cntK_le_one {k : Key} {es : List Event} (h : cntK k es ≤ 1)
    {a b : Event} (ha : a ∈ es) (hb : b ∈ es)
    (hak : a.maybe_stripped_key = k) (hbk : b.maybe_stripped_key = k) :
    a = b := by
  have hfa : a ∈ es.filter (fun e => e.maybe_stripped_key == k) :=
    List.mem_filter.2 ⟨ha, by simp [hak]⟩
  have hfb : b ∈ es.filter (fun e => e.maybe_stripped_key == k) :=
    List.mem_filter.2 ⟨hb, by simp [hbk]⟩
  have hlen : (es.filter (fun e => e.maybe_stripped_key == k)).length ≤ 1 := by
    rw [← List.countP_eq_length_filter]
    exact h
  exact mem_eq_of_length_le_one hlen hfa hfb

theorem evJoin_nil {β : Type} (f : β → List Event) : evJoin f [] = [] := rfl

theorem evJoin_cons {β : Type} (f : β → List Event) (p : Nat × β)
    (l : List (Nat × β)) : evJoin f (p :: l) = f p.2 ++ evJoin f l := by
  simp [evJoin]

theorem evJoin_append {β : Type} (f : β → List Event) (l1 l2 : List (Nat × β)) :
    evJoin f (l1 ++ l2) = evJoin f l1 ++ evJoin f l2 := by
  simp [evJoin]

theorem mem_evJoin {β : Type} {f : β → List Event} {l : List (Nat × β)}
    {x : Event} : x ∈ evJoin f l ↔ ∃ p ∈ l, x ∈ f p.2 := by
  simp only [evJoin, List.mem_flatten, List.mem_map]
  constructor
  · rintro ⟨es, ⟨p, hp, rfl⟩, hx⟩
    exact ⟨p, hp, hx⟩
  · rintro ⟨p, hp, hx⟩
    exact ⟨f p.2, ⟨p, hp, rfl⟩, hx⟩

theorem cntK_evJoin_reverse {β : Type} (f : β → List Event) (l : List (Nat × β))
    (k : Key) : cntK k (evJoin f l.reverse) = cntK k (evJoin f l) := by
  induction l with
  | nil => rfl
  | cons p t ih =>
    rw [List.reverse_cons, evJoin_append, evJoin_cons, cntK_append, cntK_append,
      evJoin_cons, evJoin_nil, cntK_append, cntK_nil, ih]
    omega

theorem mem_evJoin_reverse {β : Type} {f : β → List Event} {l : List (Nat × β)}
    {x : Event} : x ∈ evJoin f l.reverse ↔ x ∈ evJoin f l := by
  rw [mem_evJoin, mem_evJoin]
  constructor <;> rintro ⟨p, hp, hx⟩ <;>
    exact ⟨p, by simp only [List.mem_reverse] at hp ⊢; exact hp, hx⟩

theorem cntK_le_of_mem {β : Type} {f : β → List Event} {l : List (Nat × β)}
    {p : Nat × β} (hp : p ∈ l) (k : Key) :
    cntK k (f p.2) ≤ cntK k (evJoin f l) := by
  induction l with
  | nil => cases hp
  | cons q t ih =>
    rw [evJoin_cons, cntK_append]
    rcases List.mem_cons.1 hp with h | h
    · rw [h]; omega
    · have := ih h; omega

/-! ## SubInterval characterizations -/

theorem SubInterval.sub_lookup_some {si : SubInterval} {k : Key} {e : Event}
    (h : si.lookup k = some e) : e ∈ si.events ∧ e.maybe_stripped_key = k := by
  refine ⟨List.mem_of_find?_eq_some h, ?_⟩
  have := List.find?_some h
  simpa using this

theorem SubInterval.sub_lookup_none {si : SubInterval} {k : Key}
    (h : si.lookup k = none) : ∀ e ∈ si.events, e.maybe_stripped_key ≠ k := by
  intro e he
  have := List.find?_eq_none.1 h e he
  simpa using this

theorem SubInterval.sub_ifNewer_notFound {si si' : SubInterval} {k : Key}
    {ts : Timestamp} (h : si.if_newer_remove_older k ts = (si', .NotFound)) :
    si' = si ∧ ∀ e ∈ si.events, e.maybe_stripped_key ≠ k := by
  rw [SubInterval.if_newer_remove_older] at h
  split at h
  · rename_i hfind
    refine ⟨by simpa using (congrArg Prod.fst h).symm, ?_⟩
    intro e he
    have := List.find?_eq_none.1 hfind e he
    simpa using this
  · split at h <;> simp at h

theorem SubInterval.sub_ifNewer_kept {si si' : SubInterval} {k : Key}
    {ts : Timestamp} (h : si.if_newer_remove_older k ts = (si', .KeptNewer)) :
    si' = si ∧ ∃ c ∈ si.events, c.maybe_stripped_key = k ∧
      Timestamp.lt c.timestamp ts = false := by
  rw [SubInterval.if_newer_remove_older] at h
  split at h
  · simp at h
  · rename_i c hfind
    split at h
    · simp at h
    · rename_i hlt
      refine ⟨by simpa using (congrArg Prod.fst h).symm, c,
        List.mem_of_find?_eq_some hfind, ?_, by simpa using hlt⟩
      have := List.find?_some hfind
      simpa using this

theorem SubInterval.sub_ifNewer_removed {si si' : SubInterval} {k : Key}
    {ts : Timestamp} {c : Event}
    (h : si.if_newer_remove_older k ts = (si', .RemovedOlder c)) :
    c ∈ si.events ∧ c.maybe_stripped_key = k ∧
      Timestamp.lt c.timestamp ts = true ∧
      cntK k si'.events = 0 ∧
      (∀ x ∈ si'.events, x ∈ si.events) ∧
      (∀ x ∈ si.events, x.maybe_stripped_key ≠ k → x ∈ si'.events) ∧
      (∀ k', cntK k' si'.events ≤ cntK k' si.events) := by
  rw [SubInterval.if_newer_remove_older] at h
  split at h
  · simp at h
  · rename_i c0 hfind
    split at h
    · rename_i hlt
      have hpair := h
      simp only [Prod.mk.injEq, EventRemoval.RemovedOlder.injEq] at hpair
      obtain ⟨hsi', hc⟩ := hpair
      have hkey : c.maybe_stripped_key = k := by
        rw [← hc]
        have := List.find?_some hfind
        simpa using this
      have hev : si'.events =
          si.events.filter (fun e => !(e.maybe_stripped_key == k)) := by
        rw [← hsi']
      refine ⟨hc ▸ List.mem_of_find?_eq_some hfind, hkey, hc ▸ hlt, ?_, ?_, ?_, ?_⟩
      · rw [hev, cntK_eq_zero]
        intro e he
        have := (List.mem_filter.1 he).2
        simpa using this
      · intro x hx
        rw [hev] at hx
        exact List.mem_of_mem_filter hx
      · intro x hx hxk
        rw [hev]
        exact List.mem_filter.2 ⟨hx, by simpa using hxk⟩
      · intro k'
        rw [hev]
        exact List.Sublist.countP_le _ (List.filter_sublist _)
    · simp at h

/-! ## Generic descending scan -/

theorem scanDesc_notFound {α : Type} {step : α → α × EventRemoval}
    (hpres : ∀ x, (step x).2 = .NotFound → (step x).1 = x)
    {l l' : List (Nat × α)} (h : scanDesc step l = (l', .NotFound)) :
    l' = l ∧ ∀ p ∈ l, (step p.2).2 = .NotFound := by
  induction l generalizing l' with
  | nil =>
    rw [scanDesc] at h
    simp only [Prod.mk.injEq] at h
    exact ⟨h.1.symm, by simp⟩
  | cons a t ih =>
    obtain ⟨i, x⟩ := a
    rw [scanDesc] at h
    split at h
    · rename_i hstep
      simp only [Prod.mk.injEq] at h
      obtain ⟨hl', hrest⟩ := h
      obtain ⟨ht, hall⟩ := ih (show scanDesc step t =
        ((scanDesc step t).1, EventRemoval.NotFound) by rw [← hrest])
      refine ⟨?_, ?_⟩
      · rw [← hl', ht, hpres x hstep]
      · intro p hp
        rcases List.mem_cons.1 hp with rfl | hp
        · exact hstep
        · exact hall p hp
    · rename_i hne
      simp only [Prod.mk.injEq] at h
      exact absurd h.2 hne

theorem scanDesc_kept {α : Type} {step : α → α × EventRemoval}
    (hpresNF : ∀ x, (step x).2 = .NotFound → (step x).1 = x)
    (hpresK : ∀ x, (step x).2 = .KeptNewer → (step x).1 = x)
    {l l' : List (Nat × α)} (h : scanDesc step l = (l', .KeptNewer)) :
    l' = l ∧ ∃ p ∈ l, (step p.2).2 = .KeptNewer := by
  induction l generalizing l' with
  | nil =>
    rw [scanDesc] at h
    simp at h
  | cons a t ih =>
    obtain ⟨i, x⟩ := a
    rw [scanDesc] at h
    split at h
    · rename_i hstep
      simp only [Prod.mk.injEq] at h
      obtain ⟨hl', hrest⟩ := h
      obtain ⟨ht, p, hp, hkept⟩ := ih (show scanDesc step t =
        ((scanDesc step t).1, EventRemoval.KeptNewer) by rw [← hrest])
      exact ⟨by rw [← hl', ht, hpresNF x hstep], p, List.mem_cons_of_mem _ hp,
        hkept⟩
    · rename_i hne
      simp only [Prod.mk.injEq] at h
      refine ⟨?_, ⟨i, x⟩, List.mem_cons_self _ _, h.2⟩
      rw [← h.1, hpresK x h.2]

theorem scanDesc_removed {α : Type} {step : α → α × EventRemoval}
    (hpresNF : ∀ x, (step x).2 = .NotFound → (step x).1 = x)
    {l l' : List (Nat × α)} {old : Event}
    (h : scanDesc step l = (l', .RemovedOlder old)) :
    ∃ l1 i x l2, l = l1 ++ (i, x) :: l2 ∧ l' = l1 ++ (i, (step x).1) :: l2 ∧
      (∀ p ∈ l1, (step p.2).2 = .NotFound) ∧
      (step x).2 = .RemovedOlder old := by
  induction l generalizing l' with
  | nil =>
    rw [scanDesc] at h
    simp at h
  | cons a t ih =>
    obtain ⟨i, x⟩ := a
    rw [scanDesc] at h
    split at h
    · rename_i hstep
      simp only [Prod.mk.injEq] at h
      obtain ⟨hl', hrest⟩ := h
      obtain ⟨l1, j, y, l2, hteq, ht', hall, hy⟩ :=
        ih (show scanDesc step t =
          ((scanDesc step t).1, EventRemoval.RemovedOlder old) by
            rw [← hrest])
      refine ⟨(i, x) :: l1, j, y, l2, by rw [hteq, List.cons_append], ?_, ?_, hy⟩
      · rw [← hl', ht', hpresNF x hstep, List.cons_append]
      · intro p hp
        rcases List.mem_cons.1 hp with rfl | hp
        · exact hstep
        · exact hall p hp
    · rename_i hne
      simp only [Prod.mk.injEq] at h
      exact ⟨[], i, x, t, rfl, by rw [← h.1, List.nil_append], by simp, h.2⟩

/-! ## SubInterval wrappers for the scan hypotheses -/

theorem SubInterval.sub_ifNewer_pres_notFound (si : SubInterval) (k : Key)
    (ts : Timestamp) (h2 : (si.if_newer_remove_older k ts).2 = .NotFound) :
    (si.if_newer_remove_older k ts).1 = si :=
  (SubInterval.sub_ifNewer_notFound (by rw [← h2])).1

theorem SubInterval.sub_ifNewer_pres_kept (si : SubInterval) (k : Key)
    (ts : Timestamp) (h2 : (si.if_newer_remove_older k ts).2 = .KeptNewer) :
    (si.if_newer_remove_older k ts).1 = si :=
  (SubInterval.sub_ifNewer_kept (by rw [← h2])).1

/-! ## Interval characterizations -/

theorem Interval.events_eq (iv : Interval) :
    iv.events = evJoin SubInterval.events iv.sub_intervals := rfl

theorem Interval.lookup_some {iv : Interval} {k : Key} {e : Event}
    (h : iv.lookup k = some e) : e ∈ iv.events ∧ e.maybe_stripped_key = k := by
  obtain ⟨p, hp, hpe⟩ := List.exists_of_findSome?_eq_some h
  obtain ⟨hmem, hkey⟩ := SubInterval.sub_lookup_some hpe
  exact ⟨mem_evJoin.2 ⟨p, List.mem_reverse.1 hp, hmem⟩, hkey⟩

theorem Interval.lookup_none {iv : Interval} {k : Key}
    (h : iv.lookup k = none) : ∀ e ∈ iv.events, e.maybe_stripped_key ≠ k := by
  intro e he
  rw [Interval.events_eq] at he
  obtain ⟨p, hp, hpe⟩ := mem_evJoin.1 he
  have hnone := List.findSome?_eq_none_iff.1 h p (List.mem_reverse.2 hp)
  exact SubInterval.sub_lookup_none hnone e hpe

theorem cntK_evJoin_eq_zero_of {β : Type} {f : β → List Event}
    {l : List (Nat × β)} {k : Key}
    (h : ∀ p ∈ l, ∀ e ∈ f p.2, e.maybe_stripped_key ≠ k) :
    cntK k (evJoin f l) = 0 := by
  rw [cntK_eq_zero]
  intro e he
  obtain ⟨p, hp, hpe⟩ := mem_evJoin.1 he
  exact h p hp e hpe

theorem Interval.ifNewer_notFound {iv iv' : Interval} {k : Key} {ts : Timestamp}
    (h : iv.if_newer_remove_older k ts = (iv', .NotFound)) :
    iv' = iv ∧ ∀ e ∈ iv.events, e.maybe_stripped_key ≠ k := by
  simp only [Interval.if_newer_remove_older] at h
  have hsnd : (scanDesc (fun si => si.if_newer_remove_older k ts)
      iv.sub_intervals.reverse).2 = .NotFound := by
    simpa using congrArg Prod.snd h
  obtain ⟨h1, hall⟩ := scanDesc_notFound
    (fun si => SubInterval.sub_ifNewer_pres_notFound si k ts) (by rw [← hsnd])
  have hfst := congrArg Prod.fst h
  simp only at hfst
  constructor
  · rw [← hfst, h1, List.reverse_reverse, hsnd]
  · intro e he
    rw [Interval.events_eq] at he
    obtain ⟨p, hp, hpe⟩ := mem_evJoin.1 he
    have := hall p (List.mem_reverse.2 hp)
    exact (SubInterval.sub_ifNewer_notFound (by rw [← this])).2 e hpe

theorem Interval.ifNewer_kept {iv iv' : Interval} {k : Key} {ts : Timestamp}
    (h : iv.if_newer_remove_older k ts = (iv', .KeptNewer)) :
    iv' = iv ∧ ∃ c ∈ iv.events, c.maybe_stripped_key = k ∧
      Timestamp.lt c.timestamp ts = false := by
  simp only [Interval.if_newer_remove_older] at h
  have hsnd : (scanDesc (fun si => si.if_newer_remove_older k ts)
      iv.sub_intervals.reverse).2 = .KeptNewer := by
    simpa using congrArg Prod.snd h
  obtain ⟨h1, p, hp, hkept⟩ := scanDesc_kept
    (fun si => SubInterval.sub_ifNewer_pres_notFound si k ts)
    (fun si => SubInterval.sub_ifNewer_pres_kept si k ts) (by rw [← hsnd])
  have hfst := congrArg Prod.fst h
  simp only at hfst
  obtain ⟨hpres, c, hc, hck, hlt⟩ := SubInterval.sub_ifNewer_kept
    (show p.2.if_newer_remove_older k ts =
      ((p.2.if_newer_remove_older k ts).1, EventRemoval.KeptNewer) by
        rw [← hkept])
  refine ⟨?_, c, mem_evJoin.2 ⟨p, List.mem_reverse.1 hp, hc⟩, hck, hlt⟩
  rw [← hfst, h1, List.reverse_reverse, hsnd]

theorem Interval.ifNewer_pres_notFound (iv : Interval) (k : Key)
    (ts : Timestamp) (h2 : (iv.if_newer_remove_older k ts).2 = .NotFound) :
    (iv.if_newer_remove_older k ts).1 = iv :=
  (Interval.ifNewer_notFound (by rw [← h2])).1

theorem Interval.ifNewer_pres_kept (iv : Interval) (k : Key)
    (ts : Timestamp) (h2 : (iv.if_newer_remove_older k ts).2 = .KeptNewer) :
    (iv.if_newer_remove_older k ts).1 = iv :=
  (Interval.ifNewer_kept (by rw [← h2])).1

theorem Interval.ifNewer_removed {iv iv' : Interval} {k : Key} {ts : Timestamp}
    {c : Event} (h : iv.if_newer_remove_older k ts = (iv', .RemovedOlder c))
    (hcnt : cntK k iv.events ≤ 1) :
    c ∈ iv.events ∧ c.maybe_stripped_key = k ∧
      Timestamp.lt c.timestamp ts = true ∧
      cntK k iv'.events = 0 ∧
      (∀ x ∈ iv'.events, x ∈ iv.events) ∧
      (∀ x ∈ iv.events, x.maybe_stripped_key ≠ k → x ∈ iv'.events) ∧
      (∀ k', cntK k' iv'.events ≤ cntK k' iv.events) := by
  simp only [Interval.if_newer_remove_older] at h
  have hsnd : (scanDesc (fun si => si.if_newer_remove_older k ts)
      iv.sub_intervals.reverse).2 = .RemovedOlder c := by
    simpa using congrArg Prod.snd h
  obtain ⟨m1, j, y, m2, hsplit, hscan1, hm1, hy⟩ := scanDesc_removed
    (fun si => SubInterval.sub_ifNewer_pres_notFound si k ts) (by rw [← hsnd])
  obtain ⟨hcy, hcyk, hclt, hy0, hymono, hykeep, hyle⟩ :=
    SubInterval.sub_ifNewer_removed
      (show y.if_newer_remove_older k ts =
        ((y.if_newer_remove_older k ts).1, EventRemoval.RemovedOlder c) by
          rw [← hy])
  have hfst := congrArg Prod.fst h
  simp only at hfst
  have hsubs' : iv'.sub_intervals =
      (m1 ++ (j, (y.if_newer_remove_older k ts).1) :: m2).reverse := by
    rw [← hfst, ← hscan1]
  -- component-count decompositions
  have hcntOrig : ∀ k'', cntK k'' iv.events =
      cntK k'' (evJoin SubInterval.events m1) + cntK k'' y.events
        + cntK k'' (evJoin SubInterval.events m2) := by
    intro k''
    rw [Interval.events_eq, ← cntK_evJoin_reverse, hsplit, evJoin_append,
      evJoin_cons, cntK_append, cntK_append]
    dsimp only
    omega
  have hcntNew : ∀ k'', cntK k'' iv'.events =
      cntK k'' (evJoin SubInterval.events m1)
        + cntK k'' ((y.if_newer_remove_older k ts).1.events)
        + cntK k'' (evJoin SubInterval.events m2) := by
    intro k''
    rw [Interval.events_eq, hsubs', cntK_evJoin_reverse, evJoin_append,
      evJoin_cons, cntK_append, cntK_append]
    dsimp only
    omega
  have hjy : (j, y) ∈ iv.sub_intervals := by
    rw [← List.mem_reverse, hsplit]
    simp
  have hcmem : c ∈ iv.events := mem_evJoin.2 ⟨(j, y), hjy, hcy⟩
  have hm10 : cntK k (evJoin SubInterval.events m1) = 0 := by
    apply cntK_evJoin_eq_zero_of
    intro p hp e hpe
    exact (SubInterval.sub_ifNewer_notFound (by rw [← hm1 p hp])).2 e hpe
  have hy1 : 1 ≤ cntK k y.events := cntK_pos_of_mem hcy hcyk
  have hm20 : cntK k (evJoin SubInterval.events m2) = 0 := by
    have := hcntOrig k
    omega
  have hmemNew : ∀ x, x ∈ iv'.events ↔
      (x ∈ evJoin SubInterval.events m1 ∨
        x ∈ (y.if_newer_remove_older k ts).1.events ∨
        x ∈ evJoin SubInterval.events m2) := by
    intro x
    rw [Interval.events_eq, hsubs', mem_evJoin_reverse, evJoin_append,
      evJoin_cons]
    simp [or_assoc]
  have hmemOrig : ∀ x, x ∈ iv.events ↔
      (x ∈ evJoin SubInterval.events m1 ∨ x ∈ y.events ∨
        x ∈ evJoin SubInterval.events m2) := by
    intro x
    rw [Interval.events_eq, ← mem_evJoin_reverse, hsplit, evJoin_append,
      evJoin_cons]
    simp [or_assoc]
  refine ⟨hcmem, hcyk, hclt, ?_, ?_, ?_, ?_⟩
  · rw [hcntNew k, hm10, hm20, hy0]
  · intro x hx
    rcases (hmemNew x).1 hx with h1 | h1 | h1
    · exact (hmemOrig x).2 (Or.inl h1)
    · exact (hmemOrig x).2 (Or.inr (Or.inl (hymono x h1)))
    · exact (hmemOrig x).2 (Or.inr (Or.inr h1))
  · intro x hx hxk
    rcases (hmemOrig x).1 hx with h1 | h1 | h1
    · exact (hmemNew x).2 (Or.inl h1)
    · exact (hmemNew x).2 (Or.inr (Or.inl (hykeep x h1 hxk)))
    · exact (hmemNew x).2 (Or.inr (Or.inr h1))
  · intro k''
    have h1 := hcntOrig k''
    have h2 := hcntNew k''
    have h3 := hyle k''
    omega

/-! ## The interval scan of `lookup` -/

theorem LogLatest.storedEvents_eq (log : LogLatest) :
    log.storedEvents = evJoin Interval.events log.intervals := rfl

theorem LogLatest.lookup_eq (log : LogLatest) (k : Key) :
    log.lookup k =
      if log.bloom_filter_event.check k then intervalsFind k log.intervals
      else none := rfl

theorem intervalsFind_sound {k : Key} {ivs : List (Nat × Interval)} {x : Event}
    (h : intervalsFind k ivs = some x) :
    x ∈ evJoin Interval.events ivs ∧ x.maybe_stripped_key = k := by
  obtain ⟨p, hp, hpe⟩ := List.exists_of_findSome?_eq_some h
  obtain ⟨hmem, hkey⟩ := Interval.lookup_some hpe
  exact ⟨mem_evJoin.2 ⟨p, List.mem_reverse.1 hp, hmem⟩, hkey⟩

theorem intervalsFind_none {k : Key} {ivs : List (Nat × Interval)}
    (h : intervalsFind k ivs = none) :
    ∀ x ∈ evJoin Interval.events ivs, x.maybe_stripped_key ≠ k := by
  intro x hx
  obtain ⟨p, hp, hpe⟩ := mem_evJoin.1 hx
  have hnone := List.findSome?_eq_none_iff.1 h p (List.mem_reverse.2 hp)
  exact Interval.lookup_none hnone x hpe

theorem intervalsFind_none_of {k : Key} {ivs : List (Nat × Interval)}
    (h : ∀ x ∈ evJoin Interval.events ivs, x.maybe_stripped_key ≠ k) :
    intervalsFind k ivs = none := by
  cases hf : intervalsFind k ivs with
  | none => rfl
  | some x =>
    obtain ⟨hx, hk⟩ := intervalsFind_sound hf
    exact absurd hk (h x hx)

theorem intervalsFind_some_of {k : Key} {ivs : List (Nat × Interval)} {x : Event}
    (hcnt : cntK k (evJoin Interval.events ivs) ≤ 1)
    (hx : x ∈ evJoin Interval.events ivs) (hk : x.maybe_stripped_key = k) :
    intervalsFind k ivs = some x := by
  cases hf : intervalsFind k ivs with
  | none => exact absurd hk (intervalsFind_none hf x hx)
  | some y =>
    obtain ⟨hy, hyk⟩ := intervalsFind_sound hf
    rw [eq_of_cntK_le_one hcnt hy hx hyk hk]

theorem intervalsFind_congr {k : Key} {A B : List (Nat × Interval)}
    (hmem : ∀ x, x.maybe_stripped_key = k →
      (x ∈ evJoin Interval.events A ↔ x ∈ evJoin Interval.events B))
    (hB : cntK k (evJoin Interval.events B) ≤ 1) :
    intervalsFind k A = intervalsFind k B := by
  cases hf : intervalsFind k A with
  | none =>
    refine (intervalsFind_none_of ?_).symm
    intro x hx hxk
    exact intervalsFind_none hf x ((hmem x hxk).2 hx) hxk
  | some x =>
    obtain ⟨hx, hxk⟩ := intervalsFind_sound hf
    exact (intervalsFind_some_of hB ((hmem x hxk).1 hx) hxk).symm

/-! ## `alistModify` -/

theorem evJoin_alistModify_mem {β : Type} {f : β → List Event} {g : β → β}
    {dflt : β} (hd : f dflt = []) {e : Event}
    (hg : ∀ b x, x ∈ f (g b) ↔ x ∈ f b ∨ x = e) (k : Nat)
    (l : List (Nat × β)) (x : Event) :
    x ∈ evJoin f (alistModify dflt g k l) ↔ x ∈ evJoin f l ∨ x = e := by
  induction l with
  | nil =>
    simp [alistModify, evJoin_cons, evJoin_nil, hg, hd]
  | cons p t ih =>
    obtain ⟨k', v⟩ := p
    rw [alistModify]
    split
    · simp [evJoin_cons, hg, hd]
      all_goals tauto
    · split
      · simp [evJoin_cons, hg]
        all_goals tauto
      · simp [evJoin_cons, ih]
        all_goals tauto

theorem cntK_evJoin_alistModify {β : Type} {f : β → List Event} {g : β → β}
    {dflt : β} (hd : f dflt = []) {kk : Key} {c : Nat}
    (hg : ∀ b, cntK kk (f (g b)) = cntK kk (f b) + c) (k : Nat)
    (l : List (Nat × β)) :
    cntK kk (evJoin f (alistModify dflt g k l)) = cntK kk (evJoin f l) + c := by
  induction l with
  | nil =>
    simp [alistModify, evJoin_cons, evJoin_nil, cntK_append, cntK_nil, hg, hd]
  | cons p t ih =>
    obtain ⟨k', v⟩ := p
    rw [alistModify]
    split
    · simp [evJoin_cons, cntK_append, cntK_nil, hg, hd]
      all_goals omega
    · split
      · simp [evJoin_cons, cntK_append, hg]
        all_goals omega
      · simp [evJoin_cons, cntK_append, ih]
        all_goals omega

/-! ## `insert_event`: one lemma per control path of log.rs -/

theorem insert_event_check_false_ok {log : LogLatest} {e : Event} {i s : Nat}
    (hcheck : log.bloom_filter_event.check e.key_expr = false)
    (hclass : log.configuration.get_time_classification e.timestamp = .ok (i, s)) :
    log.insert_event e =
      ({ log with
         intervals := alistModify default
           (fun iv => iv.insert_unchecked s e) i log.intervals
         bloom_filter_event := log.bloom_filter_event.set e.key_expr },
       .New e) := by
  simp [LogLatest.insert_event, hcheck, hclass]

theorem insert_event_check_false_err {log : LogLatest} {e : Event} {msg : String}
    (hcheck : log.bloom_filter_event.check e.key_expr = false)
    (hclass : log.configuration.get_time_classification e.timestamp = .error msg) :
    log.insert_event e = (log, .NotInsertedAsOutOfBound) := by
  simp [LogLatest.insert_event, hcheck, hclass]

theorem insert_event_kept {log : LogLatest} {e : Event}
    {desc : List (Nat × Interval)}
    (hcheck : log.bloom_filter_event.check e.key_expr = true)
    (hscan : scanDesc
      (fun iv => iv.if_newer_remove_older e.key_expr e.timestamp)
      log.intervals.reverse = (desc, .KeptNewer)) :
    log.insert_event e =
      ({ log with intervals := desc.reverse }, .NotInsertedAsOlder) := by
  simp [LogLatest.insert_event, hcheck, hscan]

theorem insert_event_notFound_ok {log : LogLatest} {e : Event} {i s : Nat}
    {desc : List (Nat × Interval)}
    (hcheck : log.bloom_filter_event.check e.key_expr = true)
    (hscan : scanDesc
      (fun iv => iv.if_newer_remove_older e.key_expr e.timestamp)
      log.intervals.reverse = (desc, .NotFound))
    (hclass : log.configuration.get_time_classification e.timestamp = .ok (i, s)) :
    log.insert_event e =
      ({ log with
         intervals := alistModify default
           (fun iv => iv.insert_unchecked s e) i desc.reverse
         bloom_filter_event := log.bloom_filter_event.set e.key_expr },
       .New e) := by
  simp [LogLatest.insert_event, hcheck, hscan, hclass]

theorem insert_event_notFound_err {log : LogLatest} {e : Event} {msg : String}
    {desc : List (Nat × Interval)}
    (hcheck : log.bloom_filter_event.check e.key_expr = true)
    (hscan : scanDesc
      (fun iv => iv.if_newer_remove_older e.key_expr e.timestamp)
      log.intervals.reverse = (desc, .NotFound))
    (hclass : log.configuration.get_time_classification e.timestamp = .error msg) :
    log.insert_event e =
      ({ log with intervals := desc.reverse }, .NotInsertedAsOutOfBound) := by
  simp [LogLatest.insert_event, hcheck, hscan, hclass]

theorem insert_event_removed_ok {log : LogLatest} {e c : Event} {i s : Nat}
    {desc : List (Nat × Interval)}
    (hcheck : log.bloom_filter_event.check e.key_expr = true)
    (hscan : scanDesc
      (fun iv => iv.if_newer_remove_older e.key_expr e.timestamp)
      log.intervals.reverse = (desc, .RemovedOlder c))
    (hclass : log.configuration.get_time_classification e.timestamp = .ok (i, s)) :
    log.insert_event e =
      ({ log with
         intervals := alistModify default
           (fun iv => iv.insert_unchecked s e) i desc.reverse
         bloom_filter_event := log.bloom_filter_event.set e.key_expr },
       .ReplacedOlder c) := by
  simp [LogLatest.insert_event, hcheck, hscan, hclass]

theorem insert_event_removed_err {log : LogLatest} {e c : Event} {msg : String}
    {desc : List (Nat × Interval)}
    (hcheck : log.bloom_filter_event.check e.key_expr = true)
    (hscan : scanDesc
      (fun iv => iv.if_newer_remove_older e.key_expr e.timestamp)
      log.intervals.reverse = (desc, .RemovedOlder c))
    (hclass : log.configuration.get_time_classification e.timestamp = .error msg) :
    log.insert_event e =
      ({ log with intervals := desc.reverse }, .NotInsertedAsOutOfBound) := by
  simp [LogLatest.insert_event, hcheck, hscan, hclass]

theorem insert_event_configuration (log : LogLatest) (e : Event) :
    (log.insert_event e).1.configuration = log.configuration := by
  rw [LogLatest.insert_event]
  split
  · rfl
  all_goals
    dsimp only
    split
    all_goals rfl

/-! ## The interval scan of `insert_event` -/

theorem intervals_scan_notFound {k : Key} {ts : Timestamp}
    {ivs desc : List (Nat × Interval)}
    (h : scanDesc (fun iv => iv.if_newer_remove_older k ts) ivs.reverse =
      (desc, .NotFound)) :
    desc = ivs.reverse ∧
      ∀ x ∈ evJoin Interval.events ivs, x.maybe_stripped_key ≠ k := by
  obtain ⟨h1, hall⟩ :=
    scanDesc_notFound (fun iv => Interval.ifNewer_pres_notFound iv k ts) h
  refine ⟨h1, ?_⟩
  intro x hx
  obtain ⟨p, hp, hpe⟩ := mem_evJoin.1 hx
  have := hall p (List.mem_reverse.2 hp)
  exact (Interval.ifNewer_notFound (by rw [← this])).2 x hpe

theorem intervals_scan_kept {k : Key} {ts : Timestamp}
    {ivs desc : List (Nat × Interval)}
    (h : scanDesc (fun iv => iv.if_newer_remove_older k ts) ivs.reverse =
      (desc, .KeptNewer)) :
    desc = ivs.reverse ∧
      ∃ c ∈ evJoin Interval.events ivs, c.maybe_stripped_key = k ∧
        Timestamp.lt c.timestamp ts = false := by
  obtain ⟨h1, p, hp, hkept⟩ := scanDesc_kept
    (fun iv => Interval.ifNewer_pres_notFound iv k ts)
    (fun iv => Interval.ifNewer_pres_kept iv k ts) h
  obtain ⟨_, c, hc, hck, hlt⟩ := Interval.ifNewer_kept
    (show p.2.if_newer_remove_older k ts =
      ((p.2.if_newer_remove_older k ts).1, EventRemoval.KeptNewer) by
        rw [← hkept])
  exact ⟨h1, c, mem_evJoin.2 ⟨p, List.mem_reverse.1 hp, hc⟩, hck, hlt⟩

theorem intervals_scan_removed {k : Key} {ts : Timestamp} {c : Event}
    {ivs desc : List (Nat × Interval)}
    (h : scanDesc (fun iv => iv.if_newer_remove_older k ts) ivs.reverse =
      (desc, .RemovedOlder c))
    (hcnt : cntK k (evJoin Interval.events ivs) ≤ 1) :
    c ∈ evJoin Interval.events ivs ∧ c.maybe_stripped_key = k ∧
      Timestamp.lt c.timestamp ts = true ∧
      cntK k (evJoin Interval.events desc.reverse) = 0 ∧
      (∀ x ∈ evJoin Interval.events desc.reverse,
        x ∈ evJoin Interval.events ivs) ∧
      (∀ x ∈ evJoin Interval.events ivs, x.maybe_stripped_key ≠ k →
        x ∈ evJoin Interval.events desc.reverse) ∧
      (∀ k', cntK k' (evJoin Interval.events desc.reverse) ≤
        cntK k' (evJoin Interval.events ivs)) := by
  obtain ⟨l1, i0, x0, l2, hsplit, hdesc, hl1, hx0⟩ := scanDesc_removed
    (fun iv => Interval.ifNewer_pres_notFound iv k ts) h
  have hcntOrig : ∀ k'', cntK k'' (evJoin Interval.events ivs) =
      cntK k'' (evJoin Interval.events l1) + cntK k'' x0.events
        + cntK k'' (evJoin Interval.events l2) := by
    intro k''
    rw [← cntK_evJoin_reverse, hsplit, evJoin_append, evJoin_cons,
      cntK_append, cntK_append]
    dsimp only
    omega
  have hx0cnt : cntK k x0.events ≤ 1 := by
    have := hcntOrig k
    omega
  obtain ⟨hcx, hcxk, hclt, hx0', hxmono, hxkeep, hxle⟩ :=
    Interval.ifNewer_removed
      (show x0.if_newer_remove_older k ts =
        ((x0.if_newer_remove_older k ts).1, EventRemoval.RemovedOlder c) by
          rw [← hx0]) hx0cnt
  have hcntNew : ∀ k'', cntK k'' (evJoin Interval.events desc.reverse) =
      cntK k'' (evJoin Interval.events l1)
        + cntK k'' ((x0.if_newer_remove_older k ts).1.events)
        + cntK k'' (evJoin Interval.events l2) := by
    intro k''
    rw [cntK_evJoin_reverse, hdesc, evJoin_append, evJoin_cons,
      cntK_append, cntK_append]
    dsimp only
    omega
  have hix0 : (i0, x0) ∈ ivs := by
    rw [← List.mem_reverse, hsplit]
    simp
  have hcmem : c ∈ evJoin Interval.events ivs :=
    mem_evJoin.2 ⟨(i0, x0), hix0, hcx⟩
  have hl10 : cntK k (evJoin Interval.events l1) = 0 := by
    apply cntK_evJoin_eq_zero_of
    intro p hp e hpe
    exact (Interval.ifNewer_notFound (by rw [← hl1 p hp])).2 e hpe
  have hx1 : 1 ≤ cntK k x0.events := cntK_pos_of_mem hcx hcxk
  have hl20 : cntK k (evJoin Interval.events l2) = 0 := by
    have := hcntOrig k
    omega
  have hmemNew : ∀ x, x ∈ evJoin Interval.events desc.reverse ↔
      (x ∈ evJoin Interval.events l1 ∨
        x ∈ (x0.if_newer_remove_older k ts).1.events ∨
        x ∈ evJoin Interval.events l2) := by
    intro x
    rw [mem_evJoin_reverse, hdesc, evJoin_append, evJoin_cons]
    simp [or_assoc]
  have hmemOrig : ∀ x, x ∈ evJoin Interval.events ivs ↔
      (x ∈ evJoin Interval.events l1 ∨ x ∈ x0.events ∨
        x ∈ evJoin Interval.events l2) := by
    intro x
    rw [← mem_evJoin_reverse, hsplit, evJoin_append, evJoin_cons]
    simp [or_assoc]
  refine ⟨hcmem, hcxk, hclt, ?_, ?_, ?_, ?_⟩
  · rw [hcntNew k, hl10, hl20, hx0']
  · intro x hx
    rcases (hmemNew x).1 hx with h1 | h1 | h1
    · exact (hmemOrig x).2 (Or.inl h1)
    · exact (hmemOrig x).2 (Or.inr (Or.inl (hxmono x h1)))
    · exact (hmemOrig x).2 (Or.inr (Or.inr h1))
  · intro x hx hxk
    rcases (hmemOrig x).1 hx with h1 | h1 | h1
    · exact (hmemNew x).2 (Or.inl h1)
    · exact (hmemNew x).2 (Or.inr (Or.inl (hxkeep x h1 hxk)))
    · exact (hmemNew x).2 (Or.inr (Or.inr h1))
  · intro k''
    have h1 := hcntOrig k''
    have h2 := hcntNew k''
    have h3 := hxle k''
    omega

/-! ## Effect of the insertion step on the stored events -/

theorem subInterval_insert_mem (e : Event) (si : SubInterval) (x : Event) :
    x ∈ (si.insert_unchecked e).events ↔ x ∈ si.events ∨ x = e := by
  simp [SubInterval.insert_unchecked, or_comm]

theorem subInterval_insert_cnt (e : Event) (kk : Key) (si : SubInterval) :
    cntK kk (si.insert_unchecked e).events =
      cntK kk si.events + (if e.maybe_stripped_key = kk then 1 else 0) := by
  rw [SubInterval.insert_unchecked]
  dsimp only
  rw [cntK_cons]
  omega

theorem interval_insert_mem (s : Nat) (e : Event) (iv : Interval) (x : Event) :
    x ∈ (iv.insert_unchecked s e).events ↔ x ∈ iv.events ∨ x = e := by
  rw [Interval.insert_unchecked]
  rw [Interval.events_eq]
  dsimp only
  rw [Interval.events_eq]
  exact evJoin_alistModify_mem rfl (fun b y => subInterval_insert_mem e b y) s
    iv.sub_intervals x

theorem interval_insert_cnt (s : Nat) (e : Event) (kk : Key) (iv : Interval) :
    cntK kk (iv.insert_unchecked s e).events =
      cntK kk iv.events + (if e.maybe_stripped_key = kk then 1 else 0) := by
  rw [Interval.insert_unchecked]
  rw [Interval.events_eq]
  dsimp only
  rw [Interval.events_eq]
  exact cntK_evJoin_alistModify rfl (fun b => subInterval_insert_cnt e kk b) s
    iv.sub_intervals

theorem stored_alistModify_mem (i s : Nat) (e : Event)
    (l : List (Nat × Interval)) (x : Event) :
    x ∈ evJoin Interval.events
      (alistModify default (fun iv => iv.insert_unchecked s e) i l) ↔
      x ∈ evJoin Interval.events l ∨ x = e :=
  evJoin_alistModify_mem rfl (fun b y => interval_insert_mem s e b y) i l x

theorem stored_alistModify_cnt (i s : Nat) (e : Event) (kk : Key)
    (l : List (Nat × Interval)) :
    cntK kk (evJoin Interval.events
      (alistModify default (fun iv => iv.insert_unchecked s e) i l)) =
      cntK kk (evJoin Interval.events l)
        + (if e.maybe_stripped_key = kk then 1 else 0) :=
  cntK_evJoin_alistModify rfl (fun b => interval_insert_cnt s e kk b) i l

/-! ## Assembled facts about the insertion path -/

theorem storedEvents_mk (c : Configuration) (ivs : List (Nat × Interval))
    (b : Bloom) :
    (LogLatest.mk c ivs b).storedEvents = evJoin Interval.events ivs := rfl

theorem lookup_mk (c : Configuration) (ivs : List (Nat × Interval)) (b : Bloom)
    (k : Key) :
    (LogLatest.mk c ivs b).lookup k =
      if b.check k then intervalsFind k ivs else none := rfl

theorem survivorStep_self (cur : Option Event) (e : Event) :
    survivorStep e.maybe_stripped_key cur e = stepOpt cur e := by
  simp [survivorStep]

theorem survivorStep_other {k : Key} (cur : Option Event) {e : Event}
    (h : e.maybe_stripped_key ≠ k) : survivorStep k cur e = cur := by
  simp [survivorStep, h]

theorem inserted_unique {i s : Nat} {e : Event} {base : List (Nat × Interval)}
    (h0 : cntK e.maybe_stripped_key (evJoin Interval.events base) = 0)
    (hle : ∀ k, cntK k (evJoin Interval.events base) ≤ 1) :
    ∀ k, cntK k (evJoin Interval.events
      (alistModify default (fun iv => iv.insert_unchecked s e) i base)) ≤ 1 := by
  intro k
  rw [stored_alistModify_cnt]
  by_cases hk : e.maybe_stripped_key = k
  · rw [if_pos hk, ← hk, h0]
  · rw [if_neg hk]
    have := hle k
    omega

theorem inserted_find {i s : Nat} {e : Event} {base : List (Nat × Interval)}
    (h0 : cntK e.maybe_stripped_key (evJoin Interval.events base) = 0) :
    intervalsFind e.maybe_stripped_key
      (alistModify default (fun iv => iv.insert_unchecked s e) i base) =
      some e := by
  apply intervalsFind_some_of
  · rw [stored_alistModify_cnt, h0, if_pos rfl]
  · exact (stored_alistModify_mem i s e base e).2 (Or.inr rfl)
  · rfl

theorem inserted_find_other {i s : Nat} {e : Event}
    {base orig : List (Nat × Interval)} {k : Key}
    (hk : e.maybe_stripped_key ≠ k)
    (hmem : ∀ x, x.maybe_stripped_key = k →
      (x ∈ evJoin Interval.events base ↔ x ∈ evJoin Interval.events orig))
    (hcnt : cntK k (evJoin Interval.events orig) ≤ 1) :
    intervalsFind k
      (alistModify default (fun iv => iv.insert_unchecked s e) i base) =
      intervalsFind k orig := by
  apply intervalsFind_congr
  · intro x hxk
    rw [stored_alistModify_mem]
    constructor
    · rintro (hx | rfl)
      · exact (hmem x hxk).1 hx
      · exact absurd hxk hk
    · intro hx
      exact Or.inl ((hmem x hxk).2 hx)
  · exact hcnt

theorem inserted_bloomSound {i s : Nat} {e : Event}
    {base : List (Nat × Interval)} (log : LogLatest)
    (hB : BloomSound log)
    (hmono : ∀ x ∈ evJoin Interval.events base, x ∈ log.storedEvents) :
    BloomSound (LogLatest.mk log.configuration
      (alistModify default (fun iv => iv.insert_unchecked s e) i base)
      (log.bloom_filter_event.set e.key_expr)) := by
  intro x hx
  rw [storedEvents_mk] at hx
  rcases (stored_alistModify_mem i s e base x).1 hx with hx' | rfl
  · exact Bloom.check_set_mono (hB x (hmono x hx'))
  · exact Bloom.check_set_self

theorem inserted_lookup (log : LogLatest) (e : Event) {i s : Nat}
    {base : List (Nat × Interval)}
    (h0 : cntK e.maybe_stripped_key (evJoin Interval.events base) = 0)
    (hmem : ∀ x, x.maybe_stripped_key ≠ e.maybe_stripped_key →
      (x ∈ evJoin Interval.events base ↔
        x ∈ evJoin Interval.events log.intervals))
    (hUl : ∀ k, cntK k (evJoin Interval.events log.intervals) ≤ 1)
    (hprev : stepOpt (log.lookup e.maybe_stripped_key) e = some e)
    (k : Key) :
    (LogLatest.mk log.configuration
      (alistModify default (fun iv => iv.insert_unchecked s e) i base)
      (log.bloom_filter_event.set e.key_expr)).lookup k =
      survivorStep k (log.lookup k) e := by
  simp only [Event.key_expr]
  by_cases hk : e.maybe_stripped_key = k
  · subst hk
    rw [lookup_mk, if_pos Bloom.check_set_self, inserted_find h0,
      survivorStep_self, hprev]
  · rw [lookup_mk, Bloom.check_set_of_ne (fun hh => hk hh.symm),
      survivorStep_other _ hk, LogLatest.lookup_eq]
    cases hck2 : log.bloom_filter_event.check k with
    | false => rfl
    | true =>
      rw [if_pos rfl, if_pos rfl]
      exact inserted_find_other hk
        (fun x hxk => hmem x (fun hh => hk (hh ▸ hxk.symm ▸ rfl))) (hUl k)

/-! ## The main step theorem for `insert_event` -/

theorem insert_event_main (log : LogLatest) (e : Event)
    (hU : ∀ k, cntK k log.storedEvents ≤ 1) (hB : BloomSound log) :
    (∀ k, cntK k (log.insert_event e).1.storedEvents ≤ 1) ∧
    BloomSound (log.insert_event e).1 ∧
    (∀ i s, log.configuration.get_time_classification e.timestamp = .ok (i, s) →
      ∀ k, (log.insert_event e).1.lookup k = survivorStep k (log.lookup k) e) := by
  have hUl : ∀ k, cntK k (evJoin Interval.events log.intervals) ≤ 1 := hU
  have hlog : LogLatest.mk log.configuration log.intervals
      log.bloom_filter_event = log := rfl
  cases hcheck : log.bloom_filter_event.check e.key_expr with
  | false =>
    have hnokey : ∀ x ∈ evJoin Interval.events log.intervals,
        x.maybe_stripped_key ≠ e.maybe_stripped_key := by
      intro x hx hk
      have hbx := hB x hx
      rw [hk] at hbx
      rw [show log.bloom_filter_event.check e.maybe_stripped_key =
        log.bloom_filter_event.check e.key_expr from rfl, hcheck] at hbx
      cases hbx
    have h0 : cntK e.maybe_stripped_key
        (evJoin Interval.events log.intervals) = 0 :=
      cntK_eq_zero.2 hnokey
    cases hclass : log.configuration.get_time_classification e.timestamp with
    | error msg =>
      rw [insert_event_check_false_err hcheck hclass]
      refine ⟨hU, hB, ?_⟩
      intro i s hclass' k
      cases hclass'
    | ok p =>
      obtain ⟨i, s⟩ := p
      rw [insert_event_check_false_ok hcheck hclass]
      refine ⟨fun k => inserted_unique h0 hUl k,
        inserted_bloomSound log hB (fun x hx => hx), ?_⟩
      intro i' s' hclass' k
      have hlk : log.lookup e.maybe_stripped_key = none := by
        rw [LogLatest.lookup_eq, show log.bloom_filter_event.check
          e.maybe_stripped_key = false from hcheck]
        rfl
      exact inserted_lookup log e h0 (fun x _ => Iff.rfl) hUl
        (by rw [hlk]; rfl) k
  | true =>
    obtain ⟨⟨desc, r⟩, hscan⟩ : ∃ p, scanDesc
        (fun iv => iv.if_newer_remove_older e.key_expr e.timestamp)
        log.intervals.reverse = p := ⟨_, rfl⟩
    cases r with
    | KeptNewer =>
      obtain ⟨hdesc, c, hcmem, hck, hlt⟩ := intervals_scan_kept hscan
      rw [insert_event_kept hcheck hscan, hdesc, List.reverse_reverse, hlog]
      refine ⟨hU, hB, ?_⟩
      intro i' s' hclass' k
      by_cases hk : e.maybe_stripped_key = k
      · subst hk
        have hlk : log.lookup e.maybe_stripped_key = some c := by
          rw [LogLatest.lookup_eq, show log.bloom_filter_event.check
            e.maybe_stripped_key = true from hcheck, if_pos rfl]
          exact intervalsFind_some_of (hUl _) hcmem hck
        rw [survivorStep_self, hlk]
        simp [stepOpt, hlt]
      · rw [survivorStep_other _ hk]
    | NotFound =>
      obtain ⟨hdesc, hnokey⟩ := intervals_scan_notFound hscan
      have h0 : cntK e.maybe_stripped_key
          (evJoin Interval.events log.intervals) = 0 :=
        cntK_eq_zero.2 hnokey
      cases hclass : log.configuration.get_time_classification e.timestamp with
      | error msg =>
        rw [insert_event_notFound_err hcheck hscan hclass, hdesc,
          List.reverse_reverse, hlog]
        refine ⟨hU, hB, ?_⟩
        intro i s hclass' k
        cases hclass'
      | ok p =>
        obtain ⟨i, s⟩ := p
        rw [insert_event_notFound_ok hcheck hscan hclass, hdesc,
          List.reverse_reverse]
        refine ⟨fun k => inserted_unique h0 hUl k,
          inserted_bloomSound log hB (fun x hx => hx), ?_⟩
        intro i' s' hclass' k
        have hlk : log.lookup e.maybe_stripped_key = none := by
          rw [LogLatest.lookup_eq, show log.bloom_filter_event.check
            e.maybe_stripped_key = true from hcheck, if_pos rfl]
          exact intervalsFind_none_of hnokey
        exact inserted_lookup log e h0 (fun x _ => Iff.rfl) hUl
          (by rw [hlk]; rfl) k
    | RemovedOlder c =>
      obtain ⟨hcmem, hck, hlt, h0, hmono, hkeep, hle⟩ :=
        intervals_scan_removed hscan (hUl _)
      cases hclass : log.configuration.get_time_classification e.timestamp with
      | error msg =>
        rw [insert_event_removed_err hcheck hscan hclass]
        refine ⟨?_, ?_, ?_⟩
        · intro k
          exact le_trans (hle k) (hUl k)
        · intro x hx
          exact hB x (hmono x hx)
        · intro i s hclass' k
          cases hclass'
      | ok p =>
        obtain ⟨i, s⟩ := p
        rw [insert_event_removed_ok hcheck hscan hclass]
        refine ⟨fun k => inserted_unique h0
            (fun k' => le_trans (hle k') (hUl k')) k,
          inserted_bloomSound log hB (fun x hx => hmono x hx), ?_⟩
        intro i' s' hclass' k
        have hlk : log.lookup e.maybe_stripped_key = some c := by
          rw [LogLatest.lookup_eq, show log.bloom_filter_event.check
            e.maybe_stripped_key = true from hcheck, if_pos rfl]
          exact intervalsFind_some_of (hUl _) hcmem hck
        refine inserted_lookup log e h0 ?_ hUl
          (by rw [hlk]; simp [stepOpt, hlt]) k
        intro x hxk
        exact ⟨fun hx => hmono x hx,
          fun hx => hkeep x hx (fun hh => hxk (hh.trans rfl))⟩

/-! ## Folding `update` over a fresh log -/

theorem update_facts (es : List Event) : ∀ (log : LogLatest),
    (∀ k, cntK k log.storedEvents ≤ 1) → BloomSound log →
    (∀ k, cntK k (log.update es).storedEvents ≤ 1) ∧
    BloomSound (log.update es) ∧
    ((∀ e ∈ es, log.configuration.classifiesOk e.timestamp = true) →
      ∀ k, (log.update es).lookup k = survivorFrom k (log.lookup k) es) := by
  induction es with
  | nil =>
    intro log hU hB
    exact ⟨hU, hB, fun _ k => rfl⟩
  | cons e t ih =>
    intro log hU hB
    obtain ⟨hU', hB', hstep⟩ := insert_event_main log e hU hB
    obtain ⟨h1, h2, h3⟩ := ih (log.insert_event e).1 hU' hB'
    refine ⟨h1, h2, ?_⟩
    intro hb k
    have he := hb e (List.mem_cons_self _ _)
    obtain ⟨⟨i, s⟩, hcl⟩ : ∃ p,
        log.configuration.get_time_classification e.timestamp = .ok p := by
      revert he
      unfold Configuration.classifiesOk
      cases log.configuration.get_time_classification e.timestamp with
      | ok p => exact fun _ => ⟨p, rfl⟩
      | error m => intro hh; cases hh
    have hrest : ∀ e' ∈ t,
        ((log.insert_event e).1.configuration.classifiesOk e'.timestamp) = true := by
      intro e' he'
      rw [insert_event_configuration]
      exact hb e' (List.mem_cons_of_mem _ he')
    have hres := h3 hrest k
    rw [show log.update (e :: t) = ((log.insert_event e).1).update t from rfl,
      hres, hstep i s hcl k]
    rfl

theorem new_lookup (skey : List Nat) (pfx : Key) (rc : ReplicaConfig)
    (epoch : Nat) (k : Key) :
    (LogLatest.new skey pfx rc epoch).lookup k = none := by
  rw [LogLatest.lookup_eq,
    show (LogLatest.new skey pfx rc epoch).bloom_filter_event.check k = false
      from Bloom.check_new _ _ _]
  rfl

theorem new_storedEvents (skey : List Nat) (pfx : Key) (rc : ReplicaConfig)
    (epoch : Nat) :
    (LogLatest.new skey pfx rc epoch).storedEvents = [] := rfl

theorem new_unique (skey : List Nat) (pfx : Key) (rc : ReplicaConfig)
    (epoch : Nat) :
    ∀ k, cntK k (LogLatest.new skey pfx rc epoch).storedEvents ≤ 1 := by
  intro k
  rw [new_storedEvents, cntK_nil]
  omega

theorem new_bloomSound (skey : List Nat) (pfx : Key) (rc : ReplicaConfig)
    (epoch : Nat) :
    BloomSound (LogLatest.new skey pfx rc epoch) := by
  intro e he
  rw [new_storedEvents] at he
  cases he

/-! ## The pure last-writer-wins fold -/

theorem survivorStep_cases (k : Key) (init : Option Event) (e : Event) :
    (e.maybe_stripped_key ≠ k ∧ survivorStep k init e = init) ∨
    (e.maybe_stripped_key = k ∧ survivorStep k init e = some e ∧
      ∀ c, init = some c → Timestamp.lt c.timestamp e.timestamp = true) ∨
    (e.maybe_stripped_key = k ∧ ∃ c, init = some c ∧
      survivorStep k init e = some c ∧
      Timestamp.lt c.timestamp e.timestamp = false) := by
  by_cases hk : e.maybe_stripped_key = k
  · cases init with
    | none =>
      refine Or.inr (Or.inl ⟨hk, by simp [survivorStep, hk, stepOpt], ?_⟩)
      intro c hc
      cases hc
    | some c =>
      cases hlt : Timestamp.lt c.timestamp e.timestamp with
      | true =>
        refine Or.inr (Or.inl ⟨hk, by simp [survivorStep, hk, stepOpt, hlt], ?_⟩)
        intro c' hc'
        injection hc' with hh
        rw [← hh]
        exact hlt
      | false =>
        exact Or.inr (Or.inr ⟨hk, c, rfl,
          by simp [survivorStep, hk, stepOpt, hlt], hlt⟩)
  · exact Or.inl ⟨hk, by simp [survivorStep, hk]⟩

theorem survivorFrom_mem {k : Key} : ∀ (es : List Event) (init : Option Event)
    (m : Event), survivorFrom k init es = some m →
    init = some m ∨ (m ∈ es ∧ m.maybe_stripped_key = k) := by
  intro es
  induction es with
  | nil => exact fun init m h => Or.inl h
  | cons e t ih =>
    intro init m h
    rcases ih (survivorStep k init e) m h with hinit | hm
    · rcases survivorStep_cases k init e with ⟨_, heq⟩ | ⟨hk, heq, _⟩ |
        ⟨hk, c, hc, heq, _⟩
      · rw [heq] at hinit
        exact Or.inl hinit
      · rw [heq] at hinit
        injection hinit with hh
        exact Or.inr ⟨hh ▸ List.mem_cons_self _ _, hh ▸ hk⟩
      · rw [heq] at hinit
        rw [hc, hinit] at *
        exact Or.inl (hc.trans hinit)
    · exact Or.inr ⟨List.mem_cons_of_mem _ hm.1, hm.2⟩

theorem survivorFrom_none {k : Key} : ∀ (es : List Event) (init : Option Event),
    survivorFrom k init es = none →
    init = none ∧ ∀ e ∈ es, e.maybe_stripped_key ≠ k := by
  intro es
  induction es with
  | nil =>
    intro init h
    exact ⟨h, by simp⟩
  | cons e t ih =>
    intro init h
    obtain ⟨h1, h2⟩ := ih (survivorStep k init e) h
    rcases survivorStep_cases k init e with ⟨hk, heq⟩ | ⟨hk, heq, _⟩ |
      ⟨hk, c, hc, heq, _⟩
    · rw [heq] at h1
      refine ⟨h1, ?_⟩
      intro e' he'
      rcases List.mem_cons.1 he' with rfl | he'
      · exact hk
      · exact h2 e' he'
    · rw [heq] at h1
      cases h1
    · rw [heq] at h1
      cases h1

theorem survivorFrom_isSome {k : Key} {es : List Event} {init : Option Event}
    {e : Event} (he : e ∈ es) (hk : e.maybe_stripped_key = k) :
    ∃ m, survivorFrom k init es = some m := by
  cases h : survivorFrom k init es with
  | some m => exact ⟨m, rfl⟩
  | none => exact absurd hk ((survivorFrom_none es init h).2 e he)

theorem survivorFrom_dom {k : Key} : ∀ (es : List Event) (init : Option Event)
    (m : Event), survivorFrom k init es = some m →
    (∀ e ∈ es, e.maybe_stripped_key = k →
      Timestamp.lt m.timestamp e.timestamp = false) ∧
    (∀ c, init = some c → Timestamp.lt m.timestamp c.timestamp = false) := by
  intro es
  induction es with
  | nil =>
    intro init m h
    refine ⟨by simp, ?_⟩
    intro c hc
    have h' : init = some m := h
    rw [h'] at hc
    injection hc with hh
    rw [hh]
    exact Timestamp.lt_irrefl _
  | cons e t ih =>
    intro init m h
    obtain ⟨hdomT, hdomInit⟩ := ih (survivorStep k init e) m h
    have hdomE : e.maybe_stripped_key = k →
        Timestamp.lt m.timestamp e.timestamp = false := by
      intro hek
      rcases survivorStep_cases k init e with ⟨hk, _⟩ | ⟨_, heq, _⟩ |
        ⟨_, c, hc, heq, hlt⟩
      · exact absurd hek hk
      · exact hdomInit e heq
      · have hmc := hdomInit c heq
        exact Timestamp.not_lt_trans hmc hlt
    refine ⟨?_, ?_⟩
    · intro e' he' hek
      rcases List.mem_cons.1 he' with rfl | he'
      · exact hdomE hek
      · exact hdomT e' he' hek
    · intro c hc
      rcases survivorStep_cases k init e with ⟨_, heq⟩ | ⟨_, heq, hstrict⟩ |
        ⟨_, c', hc', heq, _⟩
      · exact hdomInit c (by rw [heq, hc])
      · have hme := hdomInit e heq
        have hce := hstrict c hc
        exact Timestamp.not_lt_of_lt_of_not_lt hce hme
      · rw [hc] at hc'
        injection hc' with hh
        rw [hh]
        exact hdomInit c' heq

theorem survivor_ext {k : Key} {A B : List Event}
    (hmem : ∀ x : Event, x ∈ A ↔ x ∈ B)
    (hties : ∀ e1, e1 ∈ A → ∀ e2, e2 ∈ A →
      e1.maybe_stripped_key = e2.maybe_stripped_key →
      e1.timestamp = e2.timestamp → e1 = e2) :
    survivorFrom k none A = survivorFrom k none B := by
  cases hA : survivorFrom k none A with
  | none =>
    obtain ⟨_, hno⟩ := survivorFrom_none A none hA
    cases hB : survivorFrom k none B with
    | none => rfl
    | some m =>
      rcases survivorFrom_mem B none m hB with hc | ⟨hm, hmk⟩
      · cases hc
      · exact absurd hmk (hno m ((hmem m).2 hm))
  | some m =>
    rcases survivorFrom_mem A none m hA with hc | ⟨hmA, hmk⟩
    · cases hc
    obtain ⟨m', hB⟩ :=
      @survivorFrom_isSome k B none m ((hmem m).1 hmA) hmk
    rcases survivorFrom_mem B none m' hB with hc | ⟨hmB', hmk'⟩
    · cases hc
    have hd1 := (survivorFrom_dom A none m hA).1 m' ((hmem m').2 hmB') hmk'
    have hd2 := (survivorFrom_dom B none m' hB).1 m ((hmem m).1 hmA) hmk
    have hmm : m = m' := hties m hmA m' ((hmem m').2 hmB')
      (hmk.trans hmk'.symm) (Timestamp.eq_of_not_lt_not_lt hd1 hd2)
    rw [hB, hmm]

/-! ## Classification is monotone in the timestamp -/

theorem classification_le {cfg : Configuration} {a b : Timestamp}
    {p : Nat × Nat} (ha : cfg.get_time_classification a = .ok p)
    (hle : Timestamp.lt a b = false) :
    ∃ q, cfg.get_time_classification b = .ok q := by
  simp only [Configuration.get_time_classification] at ha ⊢
  split at ha
  · cases ha
  · rename_i hidxa
    split
    · rename_i hidxb
      exfalso
      rw [Bool.eq_false_iff, Ne, Timestamp.lt_iff] at hle
      have hba : b.time ≤ a.time := by omega
      have hmono : (b.time - cfg.epoch) / cfg.replica_config.interval_duration ≤
          (a.time - cfg.epoch) / cfg.replica_config.interval_duration :=
        Nat.div_le_div_right (Nat.sub_le_sub_right hba _)
      omega
    · exact ⟨_, rfl⟩

/-! ## Removal facts that need no uniqueness hypothesis -/

theorem Interval.ifNewer_removed_basic {iv iv' : Interval} {k : Key}
    {ts : Timestamp} {c : Event}
    (h : iv.if_newer_remove_older k ts = (iv', .RemovedOlder c)) :
    c ∈ iv.events ∧ c.maybe_stripped_key = k ∧
      Timestamp.lt c.timestamp ts = true ∧
      ∀ x ∈ iv'.events, x ∈ iv.events := by
  simp only [Interval.if_newer_remove_older] at h
  have hsnd : (scanDesc (fun si => si.if_newer_remove_older k ts)
      iv.sub_intervals.reverse).2 = .RemovedOlder c := by
    simpa using congrArg Prod.snd h
  obtain ⟨m1, j, y, m2, hsplit, hscan1, hm1, hy⟩ := scanDesc_removed
    (fun si => SubInterval.sub_ifNewer_pres_notFound si k ts) (by rw [← hsnd])
  obtain ⟨hcy, hcyk, hclt, _, hymono, _, _⟩ :=
    SubInterval.sub_ifNewer_removed
      (show y.if_newer_remove_older k ts =
        ((y.if_newer_remove_older k ts).1, EventRemoval.RemovedOlder c) by
          rw [← hy])
  have hfst := congrArg Prod.fst h
  simp only at hfst
  have hsubs' : iv'.sub_intervals =
      (m1 ++ (j, (y.if_newer_remove_older k ts).1) :: m2).reverse := by
    rw [← hfst, ← hscan1]
  have hjy : (j, y) ∈ iv.sub_intervals := by
    rw [← List.mem_reverse, hsplit]
    simp
  refine ⟨mem_evJoin.2 ⟨(j, y), hjy, hcy⟩, hcyk, hclt, ?_⟩
  intro x hx
  rw [Interval.events_eq, hsubs', mem_evJoin_reverse, evJoin_append,
    evJoin_cons] at hx
  rw [Interval.events_eq, ← mem_evJoin_reverse, hsplit, evJoin_append,
    evJoin_cons]
  simp only [List.mem_append] at hx ⊢
  rcases hx with hx | hx | hx
  · exact Or.inl hx
  · exact Or.inr (Or.inl (hymono x hx))
  · exact Or.inr (Or.inr hx)

theorem intervals_scan_removed_basic {k : Key} {ts : Timestamp} {c : Event}
    {ivs desc : List (Nat × Interval)}
    (h : scanDesc (fun iv => iv.if_newer_remove_older k ts) ivs.reverse =
      (desc, .RemovedOlder c)) :
    c ∈ evJoin Interval.events ivs ∧ c.maybe_stripped_key = k ∧
      Timestamp.lt c.timestamp ts = true ∧
      ∀ x ∈ evJoin Interval.events desc.reverse,
        x ∈ evJoin Interval.events ivs := by
  obtain ⟨l1, i0, x0, l2, hsplit, hdesc, hl1, hx0⟩ := scanDesc_removed
    (fun iv => Interval.ifNewer_pres_notFound iv k ts) h
  obtain ⟨hcx, hcxk, hclt, hxmono⟩ :=
    Interval.ifNewer_removed_basic
      (show x0.if_newer_remove_older k ts =
        ((x0.if_newer_remove_older k ts).1, EventRemoval.RemovedOlder c) by
          rw [← hx0])
  have hix0 : (i0, x0) ∈ ivs := by
    rw [← List.mem_reverse, hsplit]
    simp
  refine ⟨mem_evJoin.2 ⟨(i0, x0), hix0, hcx⟩, hcxk, hclt, ?_⟩
  intro x hx
  rw [mem_evJoin_reverse, hdesc, evJoin_append, evJoin_cons] at hx
  rw [← mem_evJoin_reverse, hsplit, evJoin_append, evJoin_cons]
  simp only [List.mem_append] at hx ⊢
  rcases hx with hx | hx | hx
  · exact Or.inl hx
  · exact Or.inr (Or.inl (hxmono x hx))
  · exact Or.inr (Or.inr hx)

/-! ## The three-era digest -/

theorem xorFold_shift (g : Nat × Interval → Nat) :
    ∀ (l : List (Nat × Interval)) (x : Nat),
    l.foldl (fun a q => a ^^^ g q) x = x ^^^ l.foldl (fun a q => a ^^^ g q) 0 := by
  intro l
  induction l with
  | nil =>
    intro x
    simp
  | cons q t ih =>
    intro x
    rw [List.foldl_cons, List.foldl_cons, ih, ih (0 ^^^ g q), Nat.zero_xor,
      Nat.xor_assoc]

theorem coldOf_cons (warmL : Nat) (p : Nat × Interval)
    (t : List (Nat × Interval)) :
    coldOf warmL (p :: t) =
      if p.1 < warmL then p.2.fingerprint ^^^ coldOf warmL t
      else coldOf warmL t := by
  by_cases h : p.1 < warmL
  · rw [if_pos h]
    unfold coldOf
    rw [List.filter_cons, if_pos (by simpa using h), List.foldl_cons,
      xorFold_shift, Nat.zero_xor]
  · rw [if_neg h]
    unfold coldOf
    rw [List.filter_cons, if_neg (by simpa using h)]

theorem warmOf_cons (warmL hotL : Nat) (p : Nat × Interval)
    (t : List (Nat × Interval)) :
    warmOf warmL hotL (p :: t) =
      (if warmL ≤ p.1 ∧ p.1 < hotL ∧ p.2.fingerprint ≠ 0
        then [(p.1, p.2.fingerprint)] else []) ++ warmOf warmL hotL t := by
  by_cases h : warmL ≤ p.1 ∧ p.1 < hotL ∧ p.2.fingerprint ≠ 0
  · rw [if_pos h]
    unfold warmOf
    rw [List.filter_cons, if_pos (by simp [h.1, h.2.1, h.2.2]),
      List.map_cons, List.singleton_append]
  · rw [if_neg h]
    unfold warmOf
    rw [List.filter_cons, if_neg (by
      simp only [Bool.and_eq_true, decide_eq_true_eq]
      intro hc
      exact h ⟨hc.1.1, hc.1.2, hc.2⟩), List.nil_append]

theorem hotOf_cons (warmL hotL : Nat) (p : Nat × Interval)
    (t : List (Nat × Interval)) :
    hotOf warmL hotL (p :: t) =
      (if warmL ≤ p.1 ∧ hotL ≤ p.1
        then [(p.1, p.2.sub_intervals_fingerprints)] else []) ++
        hotOf warmL hotL t := by
  by_cases h : warmL ≤ p.1 ∧ hotL ≤ p.1
  · rw [if_pos h]
    unfold hotOf
    rw [List.filter_cons, if_pos (by simp [h.1, h.2]),
      List.map_cons, List.singleton_append]
  · rw [if_neg h]
    unfold hotOf
    rw [List.filter_cons, if_neg (by
      simp only [Bool.and_eq_true, decide_eq_true_eq]
      intro hc
      exact h hc), List.nil_append]

theorem digestFold_spec (warmL hotL : Nat) (l : List (Nat × Interval)) :
    ∀ (acc : Nat × List (Nat × Nat) × List (Nat × List (Nat × Nat))),
    l.foldl
      (fun acc p =>
        if p.1 < warmL then
          (acc.1 ^^^ p.2.fingerprint, acc.2.1, acc.2.2)
        else if p.1 < hotL then
          if p.2.fingerprint ≠ 0 then
            (acc.1, acc.2.1 ++ [(p.1, p.2.fingerprint)], acc.2.2)
          else acc
        else
          (acc.1, acc.2.1, acc.2.2 ++ [(p.1, p.2.sub_intervals_fingerprints)]))
      acc =
      (acc.1 ^^^ coldOf warmL l, acc.2.1 ++ warmOf warmL hotL l,
        acc.2.2 ++ hotOf warmL hotL l) := by
  induction l with
  | nil =>
    intro acc
    simp [coldOf, warmOf, hotOf]
  | cons p t ih =>
    intro acc
    rw [List.foldl_cons, ih, coldOf_cons, warmOf_cons, hotOf_cons]
    by_cases h1 : p.1 < warmL
    · have h4 : ¬ warmL ≤ p.1 := by omega
      simp [h1, h4, Nat.xor_assoc]
    · by_cases h2 : p.1 < hotL
      · have h4 : warmL ≤ p.1 := by omega
        have h5 : ¬ hotL ≤ p.1 := by omega
        by_cases h3 : p.2.fingerprint ≠ 0
        · simp [h1, h2, h3, h4, h5, List.append_assoc]
        · simp [h1, h2, h3, h4, h5]
      · have h4 : warmL ≤ p.1 := by omega
        have h5 : hotL ≤ p.1 := by omega
        simp [h1, h2, h4, h5, List.append_assoc]

theorem digest_from_spec (log : LogLatest) (H : List Nat → Nat) (u : Nat) :
    log.digest_from H u =
      { configuration_fingerprint := log.configuration.fingerprint H
        cold_era_fingerprint :=
          coldOf (log.configuration.warm_era_lower_bound u)
            (log.intervals.filter (fun p => decide (p.1 ≤ u)))
        warm_era_fingerprints :=
          warmOf (log.configuration.warm_era_lower_bound u)
            (log.configuration.hot_era_lower_bound u)
            (log.intervals.filter (fun p => decide (p.1 ≤ u)))
        hot_era_fingerprints :=
          hotOf (log.configuration.warm_era_lower_bound u)
            (log.configuration.hot_era_lower_bound u)
            (log.intervals.filter (fun p => decide (p.1 ≤ u))) } := by
  simp only [LogLatest.digest_from]
  rw [digestFold_spec]
  simp

theorem hot_era_lower_bound_le (c : Configuration) (u : Nat) :
    c.hot_era_lower_bound u ≤ u + 1 :=
  Nat.sub_le _ _

theorem warm_le_hot_lower_bound (c : Configuration) (u : Nat) :
    c.warm_era_lower_bound u ≤ c.hot_era_lower_bound u :=
  Nat.sub_le _ _

theorem coldOf_filter_le {warmL u : Nat} (hw : warmL ≤ u + 1)
    (l : List (Nat × Interval)) :
    coldOf warmL (l.filter (fun p => decide (p.1 ≤ u))) = coldOf warmL l := by
  unfold coldOf
  rw [List.filter_filter]
  congr 1
  apply List.filter_congr
  intro a _
  by_cases h : a.1 < warmL
  · have hu : a.1 ≤ u := by omega
    simp [h, hu]
  · simp [h]

theorem warmOf_filter_le {warmL hotL u : Nat} (hh : hotL ≤ u + 1)
    (l : List (Nat × Interval)) :
    warmOf warmL hotL (l.filter (fun p => decide (p.1 ≤ u))) =
      warmOf warmL hotL l := by
  unfold warmOf
  rw [List.filter_filter]
  congr 1
  apply List.filter_congr
  intro a _
  by_cases h : a.1 < hotL
  · have hu : a.1 ≤ u := by omega
    simp [hu]
  · simp [h]

theorem warmOf_mem {warmL hotL : Nat} {l : List (Nat × Interval)}
    {i f : Nat} :
    (i, f) ∈ warmOf warmL hotL l ↔
      ∃ iv, (i, iv) ∈ l ∧ warmL ≤ i ∧ i < hotL ∧ iv.fingerprint = f ∧
        f ≠ 0 := by
  unfold warmOf
  simp only [List.mem_map, List.mem_filter, Bool.and_eq_true,
    decide_eq_true_eq, Prod.mk.injEq]
  constructor
  · rintro ⟨⟨i', iv⟩, ⟨hmem, ⟨hw, hh⟩, hf⟩, hi, hfp⟩
    dsimp only at hw hh hf hi hfp
    exact ⟨iv, hi ▸ hmem, hi ▸ hw, hi ▸ hh, hfp, hfp ▸ hf⟩
  · rintro ⟨iv, hmem, hw, hh, hfp, hf0⟩
    exact ⟨(i, iv), ⟨hmem, ⟨hw, hh⟩, hfp.symm ▸ hf0⟩, rfl, hfp⟩

theorem hotOf_mem {warmL hotL : Nat} {l : List (Nat × Interval)}
    {i : Nat} {m : List (Nat × Nat)} :
    (i, m) ∈ hotOf warmL hotL l ↔
      ∃ iv, (i, iv) ∈ l ∧ warmL ≤ i ∧ hotL ≤ i ∧
        m = iv.sub_intervals_fingerprints := by
  unfold hotOf
  simp only [List.mem_map, List.mem_filter, Bool.and_eq_true,
    decide_eq_true_eq, Prod.mk.injEq]
  constructor
  · rintro ⟨⟨i', iv⟩, ⟨hmem, hw, hh⟩, hi, hm⟩
    dsimp only at hw hh hi hm
    exact ⟨iv, hi ▸ hmem, hi ▸ hw, hi ▸ hh, hm.symm⟩
  · rintro ⟨iv, hmem, hw, hh, hm⟩
    exact ⟨(i, iv), ⟨hmem, hw, hh⟩, rfl, hm.symm⟩

theorem sub_intervals_fingerprints_ne_zero (iv : Interval) {s f : Nat}
    (h : (s, f) ∈ iv.sub_intervals_fingerprints) : f ≠ 0 := by
  unfold Interval.sub_intervals_fingerprints at h
  obtain ⟨p, hp, hpe⟩ := List.mem_filterMap.1 h
  split at hpe
  · cases hpe
  · rename_i hne
    injection hpe with h1
    simp only [beq_iff_eq] at hne
    intro hf0
    have h2 : p.2.fingerprint = f := congrArg Prod.snd h1
    exact hne (by rw [h2, hf0])

/-! ## Little-endian byte strings -/

theorem leBytes_length (w : Nat) : ∀ n, (leBytes w n).length = w := by
  induction w with
  | zero => intro n; rfl
  | succ w ih =>
    intro n
    rw [leBytes, List.length_cons, ih]

theorem fromLeBytes_leBytes (w : Nat) : ∀ n,
    fromLeBytes (leBytes w n) = n % 256 ^ w := by
  induction w with
  | zero =>
    intro n
    simp [leBytes, fromLeBytes, Nat.mod_one]
  | succ w ih =>
    intro n
    rw [leBytes, fromLeBytes, ih, pow_succ, mul_comm (256 ^ w) 256,
      Nat.mod_mul]

/-! ## Final helpers -/

theorem classifiesOk_ok {c : Configuration} {ts : Timestamp}
    (h : c.classifiesOk ts = true) :
    ∃ p, c.get_time_classification ts = .ok p := by
  revert h
  unfold Configuration.classifiesOk
  cases c.get_time_classification ts with
  | ok p => exact fun _ => ⟨p, rfl⟩
  | error m =>
    intro hh
    cases hh

theorem insert_event_older (log : LogLatest) (e2 c : Event)
    (hU : ∀ k, cntK k log.storedEvents ≤ 1)
    (hc : c ∈ log.storedEvents)
    (hck : c.maybe_stripped_key = e2.maybe_stripped_key)
    (hbloom : log.bloom_filter_event.check e2.key_expr = true)
    (hlt : Timestamp.lt c.timestamp e2.timestamp = false) :
    log.insert_event e2 = (log, .NotInsertedAsOlder) := by
  obtain ⟨⟨desc, r⟩, hscan⟩ : ∃ p, scanDesc
      (fun iv => iv.if_newer_remove_older e2.key_expr e2.timestamp)
      log.intervals.reverse = p := ⟨_, rfl⟩
  cases r with
  | NotFound =>
    obtain ⟨_, hnokey⟩ := intervals_scan_notFound hscan
    exact absurd hck (hnokey c hc)
  | RemovedOlder c' =>
    obtain ⟨hc', hck', hlt', _⟩ := intervals_scan_removed_basic hscan
    have hcc : c' = c :=
      eq_of_cntK_le_one (hU e2.maybe_stripped_key) hc' hc hck' hck
    rw [hcc] at hlt'
    rw [hlt'] at hlt
    cases hlt
  | KeptNewer =>
    obtain ⟨hdesc, _⟩ := intervals_scan_kept hscan
    rw [insert_event_kept hbloom hscan, hdesc, List.reverse_reverse]

theorem bloomSound_insert (log : LogLatest) (e : Event) (hB : BloomSound log) :
    BloomSound (log.insert_event e).1 := by
  cases hcheck : log.bloom_filter_event.check e.key_expr with
  | false =>
    cases hclass : log.configuration.get_time_classification e.timestamp with
    | error msg =>
      rw [insert_event_check_false_err hcheck hclass]
      exact hB
    | ok p =>
      obtain ⟨i, s⟩ := p
      rw [insert_event_check_false_ok hcheck hclass]
      exact inserted_bloomSound log hB (fun x hx => hx)
  | true =>
    obtain ⟨⟨desc, r⟩, hscan⟩ : ∃ p, scanDesc
        (fun iv => iv.if_newer_remove_older e.key_expr e.timestamp)
        log.intervals.reverse = p := ⟨_, rfl⟩
    cases r with
    | KeptNewer =>
      obtain ⟨hdesc, _⟩ := intervals_scan_kept hscan
      rw [insert_event_kept hcheck hscan, hdesc, List.reverse_reverse]
      exact hB
    | NotFound =>
      obtain ⟨hdesc, _⟩ := intervals_scan_notFound hscan
      cases hclass : log.configuration.get_time_classification e.timestamp with
      | error msg =>
        rw [insert_event_notFound_err hcheck hscan hclass, hdesc,
          List.reverse_reverse]
        exact hB
      | ok p =>
        obtain ⟨i, s⟩ := p
        rw [insert_event_notFound_ok hcheck hscan hclass, hdesc,
          List.reverse_reverse]
        exact inserted_bloomSound log hB (fun x hx => hx)
    | RemovedOlder c =>
      obtain ⟨_, _, _, hmono⟩ := intervals_scan_removed_basic hscan
      cases hclass : log.configuration.get_time_classification e.timestamp with
      | error msg =>
        rw [insert_event_removed_err hcheck hscan hclass]
        intro x hx
        exact hB x (hmono x hx)
      | ok p =>
        obtain ⟨i, s⟩ := p
        rw [insert_event_removed_ok hcheck hscan hclass]
        exact inserted_bloomSound log hB hmono

/-! ## The claims -/

/-- C3: Uniqueness invariant — starting from `LogLatest::new`, after any
finite sequence of `insert_event` calls, every key (the prefix-stripped key
`none` included) has at most one `Event` stored across all intervals and
sub-intervals of the log. -/
theorem C3_uniqueness (skey : List Nat) (pfx : Key) (rc : ReplicaConfig)
    (epoch : Nat) (es : List Event) (k : Key) :
    cntK k ((LogLatest.new skey pfx rc epoch).update es).storedEvents ≤ 1 :=
  (update_facts es _ (new_unique skey pfx rc epoch)
    (new_bloomSound skey pfx rc epoch)).1 k

/-- C4: Bloom soundness and authoritative miss — the invariant "every key
with a stored `Event` has its Bloom bit set" is preserved by every
`insert_event` call; consequently `lookup k = none` implies no `Event` for
`k` is in the log, and `lookup k = some _` implies the Bloom filter reports
membership for `k`. -/
theorem C4_bloom_soundness (log : LogLatest) (e : Event) (k : Key)
    (hB : BloomSound log) :
    BloomSound (log.insert_event e).1 ∧
    (log.lookup k = none → ∀ x ∈ log.storedEvents,
      x.maybe_stripped_key ≠ k) ∧
    (∀ ev, log.lookup k = some ev →
      log.bloom_filter_event.check k = true) := by
  refine ⟨bloomSound_insert log e hB, ?_, ?_⟩
  · intro hnone x hx hk
    have hbx := hB x hx
    rw [hk] at hbx
    rw [LogLatest.lookup_eq, hbx, if_pos rfl] at hnone
    exact intervalsFind_none hnone x hx hk
  · intro ev hsome
    cases hck : log.bloom_filter_event.check k with
    | true => rfl
    | false =>
      rw [LogLatest.lookup_eq, hck] at hsome
      simp at hsome

/-- Witness for C4 at a concrete log, event and key. -/
theorem C4_bloom_soundness_witness :
    BloomSound sampleLog2 ∧
    (BloomSound (sampleLog2.insert_event evAtie).1 ∧
      (sampleLog2.lookup (some [98]) = none →
        ∀ x ∈ sampleLog2.storedEvents, x.maybe_stripped_key ≠ some [98]) ∧
      (∀ ev, sampleLog2.lookup (some [98]) = some ev →
        sampleLog2.bloom_filter_event.check (some [98]) = true)) :=
  ⟨by decide, C4_bloom_soundness sampleLog2 evAtie (some [98]) (by decide)⟩

/-- C8: Event fingerprint formula — `Event::new` hashes, with the abstracted
xxh3-64 `H` (default seed), exactly the key-expression bytes (empty for
`none`), then the 8 little-endian bytes of `ts.time`, then the 16
little-endian bytes of the node id; the byte strings are genuine
little-endian encodings, and the action does not contribute to the hash. -/
theorem C8_event_fingerprint (H : List Nat → Nat) (k : Key) (ts : Timestamp)
    (a : SampleKind) :
    (Event.new H k ts a).fingerprint =
      H ((match k with | some kb => kb | none => []) ++
        leBytes 8 ts.time ++ leBytes 16 ts.node_id) ∧
    (leBytes 8 ts.time).length = 8 ∧
    (leBytes 16 ts.node_id).length = 16 ∧
    fromLeBytes (leBytes 8 ts.time) = ts.time % 2 ^ 64 ∧
    fromLeBytes (leBytes 16 ts.node_id) = ts.node_id % 2 ^ 128 ∧
    (∀ a', (Event.new H k ts a').fingerprint =
      (Event.new H k ts a).fingerprint) := by
  refine ⟨?_, leBytes_length 8 _, leBytes_length 16 _, ?_, ?_, fun a' => rfl⟩
  · cases k with
    | none => simp [Event.new, Xxh3.dflt, Xxh3.update, Xxh3.digest]
    | some kb => simp [Event.new, Xxh3.dflt, Xxh3.update, Xxh3.digest]
  · rw [fromLeBytes_leBytes]
    norm_num
  · rw [fromLeBytes_leBytes]
    norm_num

/-- C9: Bloom filter sizing — `LogLatest::new` always constructs its Bloom
filter for `2 << 22 = 2 ^ 23 = 8388608` items at a 0.01 false-positive
rate. -/
theorem C9_bloom_sizing (skey : List Nat) (pfx : Key) (rc : ReplicaConfig)
    (epoch : Nat) :
    (LogLatest.new skey pfx rc epoch).bloom_filter_event.capacity = 2 ^ 23 ∧
    (LogLatest.new skey pfx rc epoch).bloom_filter_event.capacity =
      8388608 ∧
    (LogLatest.new skey pfx rc epoch).bloom_filter_event.fp_rate = 1 / 100 := by
  refine ⟨?_, ?_, ?_⟩
  · show (2 <<< 22 : Nat) = 2 ^ 23
    decide
  · show (2 <<< 22 : Nat) = 8388608
    decide
  · show (0.01 : Rat) = 1 / 100
    norm_num

/-- C1 as frozen is false on the code: `evA1` (put) and `evAtie` (delete)
carry the same key and the same timestamp; both singleton batches are over
the same keys and in bound, yet folding `insert_event` over the two
concatenation orders yields different key-to-event projections, because on
an equal timestamp the incumbent always wins. -/
theorem C1_counterexample :
    (∀ e ∈ [evA1] ++ [evAtie],
      sampleLog.configuration.classifiesOk e.timestamp = true) ∧
    (∀ e ∈ [evA1] ++ [evAtie], e.maybe_stripped_key = some [97]) ∧
    (sampleLog.update ([evA1] ++ [evAtie])).lookup (some [97]) ≠
      (sampleLog.update ([evAtie] ++ [evA1])).lookup (some [97]) := by
  refine ⟨by decide, by decide, by decide⟩

/-- C1 (amended): order-insensitive LWW convergence — for any two event
batches `A`, `B` with in-bound timestamps, *provided no two distinct events
share both a key and a timestamp*, folding `insert_event` over `A ++ B` and
over `B ++ A` from fresh logs yields identical key-to-event projections,
and for each key the surviving event is one of the inserted events with
that key and no inserted event with that key has a lexicographically
greater `(time, node_id)` timestamp; a survivor exists whenever some event
with that key was inserted. -/
theorem C1_lww_convergence (skey : List Nat) (pfx : Key) (rc : ReplicaConfig)
    (epoch : Nat) (A B : List Event) (k : Key)
    (hbound : ∀ e ∈ A ++ B,
      (Configuration.new skey pfx rc epoch).classifiesOk e.timestamp = true)
    (hties : ∀ e1, e1 ∈ A ++ B → ∀ e2, e2 ∈ A ++ B →
      e1.maybe_stripped_key = e2.maybe_stripped_key →
      e1.timestamp = e2.timestamp → e1 = e2) :
    ((LogLatest.new skey pfx rc epoch).update (A ++ B)).lookup k =
      ((LogLatest.new skey pfx rc epoch).update (B ++ A)).lookup k ∧
    (∀ m, ((LogLatest.new skey pfx rc epoch).update (A ++ B)).lookup k =
        some m →
      m ∈ A ++ B ∧ m.maybe_stripped_key = k ∧
        ∀ e ∈ A ++ B, e.maybe_stripped_key = k →
          Timestamp.lt m.timestamp e.timestamp = false) ∧
    (∀ e ∈ A ++ B, e.maybe_stripped_key = k →
      ∃ m, ((LogLatest.new skey pfx rc epoch).update (A ++ B)).lookup k =
        some m) := by
  have hAB := (update_facts (A ++ B) (LogLatest.new skey pfx rc epoch)
    (new_unique skey pfx rc epoch) (new_bloomSound skey pfx rc epoch)).2.2
    hbound k
  rw [new_lookup] at hAB
  have hboundBA : ∀ e ∈ B ++ A,
      (Configuration.new skey pfx rc epoch).classifiesOk e.timestamp = true := by
    intro e he
    refine hbound e ?_
    rw [List.mem_append] at he ⊢
    exact he.symm
  have hBA := (update_facts (B ++ A) (LogLatest.new skey pfx rc epoch)
    (new_unique skey pfx rc epoch) (new_bloomSound skey pfx rc epoch)).2.2
    hboundBA k
  rw [new_lookup] at hBA
  have hmm : ∀ x : Event, x ∈ A ++ B ↔ x ∈ B ++ A := by
    intro x
    rw [List.mem_append, List.mem_append]
    exact Or.comm
  refine ⟨?_, ?_, ?_⟩
  · rw [hAB, hBA]
    exact survivor_ext hmm hties
  · intro m hm
    rw [hAB] at hm
    rcases survivorFrom_mem (A ++ B) none m hm with hc | ⟨hmem, hmk⟩
    · cases hc
    exact ⟨hmem, hmk,
      fun e he hek => (survivorFrom_dom (A ++ B) none m hm).1 e he hek⟩
  · intro e he hek
    rw [hAB]
    exact survivorFrom_isSome he hek

/-- Witness for C1 (amended) at two concrete tie-free batches. -/
theorem C1_lww_convergence_witness :
    (∀ e ∈ [evA1] ++ [evA2],
      (Configuration.new [115] none sampleReplicaConfig 0).classifiesOk
        e.timestamp = true) ∧
    (∀ e1, e1 ∈ [evA1] ++ [evA2] → ∀ e2, e2 ∈ [evA1] ++ [evA2] →
      e1.maybe_stripped_key = e2.maybe_stripped_key →
      e1.timestamp = e2.timestamp → e1 = e2) ∧
    ((LogLatest.new [115] none sampleReplicaConfig 0).update
        ([evA1] ++ [evA2])).lookup (some [97]) =
      ((LogLatest.new [115] none sampleReplicaConfig 0).update
        ([evA2] ++ [evA1])).lookup (some [97]) :=
  ⟨by decide, by decide,
    (C1_lww_convergence [115] none sampleReplicaConfig 0 [evA1] [evA2]
      (some [97]) (by decide) (by decide)).1⟩

/-- C2 as frozen is false on the code: inserting the out-of-bound event
`evOobA` into `sampleLog2`, whose key already has the strictly older
incumbent `evA2`, returns `NotInsertedAsOutOfBound` yet mutates the log —
the scan removed the incumbent before the timestamp classification
failed. -/
theorem C2_counterexample :
    (sampleLog2.insert_event evOobA).2 = .NotInsertedAsOutOfBound ∧
    (sampleLog2.insert_event evOobA).1 ≠ sampleLog2 :=
  ⟨by decide, fun h => absurd (congrArg LogLatest.intervals h) (by decide)⟩

/-- C2 (amended): insertion atomicity holds for every outcome except an
out-of-bound drop that follows the removal of an older incumbent —
`NotInsertedAsOlder` leaves the log exactly unchanged; on
`NotInsertedAsOutOfBound` the Bloom filter is untouched and no event is
added (the stored events only shrink: the event is dropped, but an older
same-key incumbent removed by the scan stays removed); on `New` or
`ReplacedOlder` the event is fully inserted and the Bloom bit set. -/
theorem C2_insertion_atomicity (log : LogLatest) (e : Event) :
    ((log.insert_event e).2 = .NotInsertedAsOlder →
      (log.insert_event e).1 = log) ∧
    ((log.insert_event e).2 = .NotInsertedAsOutOfBound →
      (log.insert_event e).1.bloom_filter_event = log.bloom_filter_event ∧
      ∀ x ∈ (log.insert_event e).1.storedEvents, x ∈ log.storedEvents) ∧
    (∀ c, ((log.insert_event e).2 = .New e ∨
        (log.insert_event e).2 = .ReplacedOlder c) →
      e ∈ (log.insert_event e).1.storedEvents ∧
      (log.insert_event e).1.bloom_filter_event =
        log.bloom_filter_event.set e.key_expr) := by
  cases hcheck : log.bloom_filter_event.check e.key_expr with
  | false =>
    cases hclass : log.configuration.get_time_classification e.timestamp with
    | error msg =>
      rw [insert_event_check_false_err hcheck hclass]
      refine ⟨fun h => by simp at h, fun _ => ⟨rfl, fun x hx => hx⟩, ?_⟩
      intro c h
      rcases h with h | h <;> simp at h
    | ok p =>
      obtain ⟨i, s⟩ := p
      rw [insert_event_check_false_ok hcheck hclass]
      refine ⟨fun h => by simp at h, fun h => by simp at h, ?_⟩
      intro c _
      exact ⟨(stored_alistModify_mem i s e log.intervals e).2 (Or.inr rfl),
        rfl⟩
  | true =>
    obtain ⟨⟨desc, r⟩, hscan⟩ : ∃ p, scanDesc
        (fun iv => iv.if_newer_remove_older e.key_expr e.timestamp)
        log.intervals.reverse = p := ⟨_, rfl⟩
    cases r with
    | KeptNewer =>
      obtain ⟨hdesc, _⟩ := intervals_scan_kept hscan
      rw [insert_event_kept hcheck hscan, hdesc, List.reverse_reverse]
      refine ⟨fun _ => rfl, fun h => by simp at h, ?_⟩
      intro c h
      rcases h with h | h <;> simp at h
    | NotFound =>
      obtain ⟨hdesc, _⟩ := intervals_scan_notFound hscan
      cases hclass : log.configuration.get_time_classification e.timestamp with
      | error msg =>
        rw [insert_event_notFound_err hcheck hscan hclass, hdesc,
          List.reverse_reverse]
        refine ⟨fun h => by simp at h, fun _ => ⟨rfl, fun x hx => hx⟩, ?_⟩
        intro c h
        rcases h with h | h <;> simp at h
      | ok p =>
        obtain ⟨i, s⟩ := p
        rw [insert_event_notFound_ok hcheck hscan hclass, hdesc,
          List.reverse_reverse]
        refine ⟨fun h => by simp at h, fun h => by simp at h, ?_⟩
        intro c _
        exact ⟨(stored_alistModify_mem i s e log.intervals e).2 (Or.inr rfl),
          rfl⟩
    | RemovedOlder c0 =>
      obtain ⟨_, _, _, hmono⟩ := intervals_scan_removed_basic hscan
      cases hclass : log.configuration.get_time_classification e.timestamp with
      | error msg =>
        rw [insert_event_removed_err hcheck hscan hclass]
        refine ⟨fun h => by simp at h,
          fun _ => ⟨rfl, fun x hx => hmono x hx⟩, ?_⟩
        intro c h
        rcases h with h | h <;> simp at h
      | ok p =>
        obtain ⟨i, s⟩ := p
        rw [insert_event_removed_ok hcheck hscan hclass]
        refine ⟨fun h => by simp at h, fun h => by simp at h, ?_⟩
        intro c _
        exact ⟨(stored_alistModify_mem i s e desc.reverse e).2 (Or.inr rfl),
          rfl⟩

/-- Witness for C2 (amended): a concrete `NotInsertedAsOlder` call leaves
the log byte-identical. -/
theorem C2_insertion_atomicity_witness :
    (sampleLog2.insert_event evAtie).2 = .NotInsertedAsOlder ∧
    (sampleLog2.insert_event evAtie).1 = sampleLog2 :=
  ⟨by decide, (C2_insertion_atomicity sampleLog2 evAtie).1 (by decide)⟩

/-- C5 as frozen is false on the code: in `sampleLog2`, interval 10 is
stored but empty (fingerprint 0), and `digest_from 11` still inserts it in
the hot map (with an empty sub-interval map) — the hot-era branch of
`digest_from` does not filter empty intervals, so "no interval entry with
fingerprint 0 appears in the warm or hot maps" fails for the hot map. -/
theorem C5_counterexample :
    (10, ([] : List (Nat × Nat))) ∈
      (sampleLog2.digest_from (fun _ => 0) 11).hot_era_fingerprints ∧
    (sampleLog2.intervals.find? (fun p => p.1 == 10)).map
      (fun p => p.2.fingerprint) = some 0 := by
  refine ⟨by decide, by decide⟩

/-- C5 (amended): digest era classification and sparsity — `digest_from u`
considers exactly the stored intervals with index `≤ u`; the cold
fingerprint is the XOR of the fingerprints of the intervals below the warm
lower bound; the warm map holds exactly the intervals in
`[warm_lower, hot_lower)` with a non-zero fingerprint (so no zero
fingerprint appears in the warm map); the hot map holds *all* stored
intervals in `[hot_lower, u]` — including empty ones — each with its
per-sub-interval fingerprints, from which empty sub-intervals
(fingerprint 0) are omitted. -/
theorem C5_digest_eras (log : LogLatest) (H : List Nat → Nat) (u : Nat) :
    (log.digest_from H u).cold_era_fingerprint =
      coldOf (log.configuration.warm_era_lower_bound u) log.intervals ∧
    (∀ i f, (i, f) ∈ (log.digest_from H u).warm_era_fingerprints ↔
      ∃ iv, (i, iv) ∈ log.intervals ∧
        log.configuration.warm_era_lower_bound u ≤ i ∧
        i < log.configuration.hot_era_lower_bound u ∧
        iv.fingerprint = f ∧ f ≠ 0) ∧
    (∀ i m, (i, m) ∈ (log.digest_from H u).hot_era_fingerprints ↔
      ∃ iv, (i, iv) ∈ log.intervals ∧
        log.configuration.hot_era_lower_bound u ≤ i ∧ i ≤ u ∧
        m = iv.sub_intervals_fingerprints) ∧
    (∀ i f, (i, f) ∈ (log.digest_from H u).warm_era_fingerprints →
      f ≠ 0) ∧
    (∀ i m, (i, m) ∈ (log.digest_from H u).hot_era_fingerprints →
      ∀ s f, (s, f) ∈ m → f ≠ 0) := by
  rw [digest_from_spec]
  dsimp only
  refine ⟨?_, ?_, ?_, ?_, ?_⟩
  · exact coldOf_filter_le (le_trans (warm_le_hot_lower_bound _ _)
      (hot_era_lower_bound_le _ _)) _
  · intro i f
    rw [warmOf_filter_le (hot_era_lower_bound_le _ _), warmOf_mem]
  · intro i m
    rw [hotOf_mem]
    constructor
    · rintro ⟨iv, hmem, _, hh, hm⟩
      rw [List.mem_filter] at hmem
      exact ⟨iv, hmem.1, hh, by simpa using hmem.2, hm⟩
    · rintro ⟨iv, hmem, hh, hu, hm⟩
      exact ⟨iv, List.mem_filter.2 ⟨hmem, by simpa using hu⟩,
        le_trans (warm_le_hot_lower_bound _ _) hh, hh, hm⟩
  · intro i f hm
    rw [warmOf_filter_le (hot_era_lower_bound_le _ _), warmOf_mem] at hm
    obtain ⟨iv, _, _, _, _, h0⟩ := hm
    exact h0
  · intro i m hm s f hsf
    rw [hotOf_mem] at hm
    obtain ⟨iv, _, _, _, hmeq⟩ := hm
    rw [hmeq] at hsf
    exact sub_intervals_fingerprints_ne_zero iv hsf

/-- Witness for C5 (amended): the cold fingerprint of a concrete digest
matches the closed form. -/
theorem C5_digest_eras_witness :
    (sampleLog2.digest_from (fun _ => 0) 11).cold_era_fingerprint =
      coldOf (sampleLog2.configuration.warm_era_lower_bound 11)
        sampleLog2.intervals :=
  (C5_digest_eras sampleLog2 (fun _ => 0) 11).1

/-- C6: Out-of-bound handling — when the timestamp classification of the
event fails and every stored event classifies (any log reachable through
`insert_event` satisfies this), `insert_event` returns
`NotInsertedAsOutOfBound`, does not touch the Bloom filter, and does not
insert the event into any interval (the stored events only shrink). -/
theorem C6_out_of_bound (log : LogLatest) (e : Event) (msg : String)
    (herr : log.configuration.get_time_classification e.timestamp =
      .error msg)
    (hall : ∀ c ∈ log.storedEvents,
      log.configuration.classifiesOk c.timestamp = true) :
    (log.insert_event e).2 = .NotInsertedAsOutOfBound ∧
    (log.insert_event e).1.bloom_filter_event = log.bloom_filter_event ∧
    (∀ x ∈ (log.insert_event e).1.storedEvents, x ∈ log.storedEvents) := by
  cases hcheck : log.bloom_filter_event.check e.key_expr with
  | false =>
    rw [insert_event_check_false_err hcheck herr]
    exact ⟨rfl, rfl, fun x hx => hx⟩
  | true =>
    obtain ⟨⟨desc, r⟩, hscan⟩ : ∃ p, scanDesc
        (fun iv => iv.if_newer_remove_older e.key_expr e.timestamp)
        log.intervals.reverse = p := ⟨_, rfl⟩
    cases r with
    | KeptNewer =>
      exfalso
      obtain ⟨_, c, hcm, hck, hlt⟩ := intervals_scan_kept hscan
      obtain ⟨p, hp⟩ := classifiesOk_ok (hall c hcm)
      obtain ⟨q, hq⟩ := classification_le hp hlt
      rw [herr] at hq
      cases hq
    | NotFound =>
      obtain ⟨hdesc, _⟩ := intervals_scan_notFound hscan
      rw [insert_event_notFound_err hcheck hscan herr, hdesc,
        List.reverse_reverse]
      exact ⟨rfl, rfl, fun x hx => hx⟩
    | RemovedOlder c =>
      obtain ⟨_, _, _, hmono⟩ := intervals_scan_removed_basic hscan
      rw [insert_event_removed_err hcheck hscan herr]
      exact ⟨rfl, rfl, fun x hx => hmono x hx⟩

/-- Witness for C6: a fresh log and a concrete out-of-bound event. -/
theorem C6_out_of_bound_witness :
    sampleLog.configuration.get_time_classification evOobFresh.timestamp =
      .error "OutOfBound" ∧
    (∀ c ∈ sampleLog.storedEvents,
      sampleLog.configuration.classifiesOk c.timestamp = true) ∧
    ((sampleLog.insert_event evOobFresh).2 = .NotInsertedAsOutOfBound ∧
      (sampleLog.insert_event evOobFresh).1.bloom_filter_event =
        sampleLog.bloom_filter_event ∧
      (∀ x ∈ (sampleLog.insert_event evOobFresh).1.storedEvents,
        x ∈ sampleLog.storedEvents)) :=
  ⟨by rfl, by decide,
    C6_out_of_bound sampleLog evOobFresh "OutOfBound" (by rfl) (by decide)⟩

/-- C7: Idempotent re-insertion with incumbent-wins tie-break — inserting an
in-bound event `e` into a fresh log returns `New e`, and then inserting any
event with the same key and an equal timestamp (in particular `e` itself)
returns `NotInsertedAsOlder` and leaves the log byte-identical to its state
after the first insertion. -/
theorem C7_idempotent_reinsertion (skey : List Nat) (pfx : Key)
    (rc : ReplicaConfig) (epoch : Nat) (e e2 : Event) (i s : Nat)
    (hclass : (Configuration.new skey pfx rc epoch).get_time_classification
      e.timestamp = .ok (i, s))
    (hk : e2.maybe_stripped_key = e.maybe_stripped_key)
    (hts : e2.timestamp = e.timestamp) :
    ((LogLatest.new skey pfx rc epoch).insert_event e).2 = .New e ∧
    ((((LogLatest.new skey pfx rc epoch).insert_event e).1).insert_event
      e2).2 = .NotInsertedAsOlder ∧
    ((((LogLatest.new skey pfx rc epoch).insert_event e).1).insert_event
      e2).1 = ((LogLatest.new skey pfx rc epoch).insert_event e).1 := by
  have hcheck0 : (LogLatest.new skey pfx rc epoch).bloom_filter_event.check
      e.key_expr = false := Bloom.check_new _ _ _
  have hpath := insert_event_check_false_ok hcheck0 hclass
  obtain ⟨hU1, hB1, _⟩ := insert_event_main (LogLatest.new skey pfx rc epoch)
    e (new_unique skey pfx rc epoch) (new_bloomSound skey pfx rc epoch)
  have hmem : e ∈ ((LogLatest.new skey pfx rc epoch).insert_event
      e).1.storedEvents := by
    rw [hpath]
    exact (stored_alistModify_mem i s e _ e).2 (Or.inr rfl)
  have hbloom : ((LogLatest.new skey pfx rc epoch).insert_event
      e).1.bloom_filter_event.check e2.key_expr = true := by
    rw [hpath]
    show ((LogLatest.new skey pfx rc epoch).bloom_filter_event.set
      e.key_expr).check e2.key_expr = true
    have : e2.key_expr = e.key_expr := hk
    rw [this]
    exact Bloom.check_set_self
  have holder := insert_event_older
    ((LogLatest.new skey pfx rc epoch).insert_event e).1 e2 e hU1 hmem
    hk.symm hbloom (by rw [hts]; exact Timestamp.lt_irrefl _)
  refine ⟨by rw [hpath], by rw [holder], by rw [holder]⟩

/-- Witness for C7: re-inserting `evA1` into a fresh sample log. -/
theorem C7_idempotent_reinsertion_witness :
    (Configuration.new [115] none sampleReplicaConfig 0).get_time_classification
      evA1.timestamp = .ok (10, 0) ∧
    (((LogLatest.new [115] none sampleReplicaConfig 0).insert_event
      evA1).2 = .New evA1 ∧
    ((((LogLatest.new [115] none sampleReplicaConfig 0).insert_event
      evA1).1).insert_event evA1).2 = .NotInsertedAsOlder ∧
    ((((LogLatest.new [115] none sampleReplicaConfig 0).insert_event
      evA1).1).insert_event evA1).1 =
      ((LogLatest.new [115] none sampleReplicaConfig 0).insert_event
        evA1).1) :=
  ⟨by rfl, C7_idempotent_reinsertion [115] none sampleReplicaConfig 0
    evA1 evA1 10 0 (by rfl) rfl rfl⟩

/-- C10: the prefix-stripped key `none` is a first-class key — its
fingerprint is computed over the timestamp bytes alone (no key bytes), at
most one `Event` with key `none` is ever stored, and `lookup none` returns
exactly the last-writer-wins survivor of the `none`-keyed events, through
the same Bloom check, newest-to-oldest scan and timestamp comparison as any
named key. -/
theorem C10_none_key (H : List Nat → Nat) (skey : List Nat) (pfx : Key)
    (rc : ReplicaConfig) (epoch : Nat) (es : List Event) (ts : Timestamp)
    (a : SampleKind)
    (hbound : ∀ e ∈ es,
      (Configuration.new skey pfx rc epoch).classifiesOk e.timestamp = true) :
    (Event.new H none ts a).fingerprint =
      H (leBytes 8 ts.time ++ leBytes 16 ts.node_id) ∧
    cntK none ((LogLatest.new skey pfx rc epoch).update es).storedEvents ≤ 1 ∧
    ((LogLatest.new skey pfx rc epoch).update es).lookup none =
      survivorFrom none none es := by
  refine ⟨?_, ?_, ?_⟩
  · simp [Event.new, Xxh3.dflt, Xxh3.update, Xxh3.digest]
  · exact (update_facts es _ (new_unique skey pfx rc epoch)
      (new_bloomSound skey pfx rc epoch)).1 none
  · have h := (update_facts es _ (new_unique skey pfx rc epoch)
      (new_bloomSound skey pfx rc epoch)).2.2 hbound none
    rw [new_lookup] at h
    exact h

/-- Witness for C10 with two concrete `none`-keyed events. -/
theorem C10_none_key_witness :
    (∀ e ∈ [evN1, evN2],
      (Configuration.new [115] none sampleReplicaConfig 0).classifiesOk
        e.timestamp = true) ∧
    ((Event.new (fun l => l.length) none ⟨100, 1⟩ .put).fingerprint =
      (fun l : List Nat => l.length)
        (leBytes 8 (100 : Nat) ++ leBytes 16 (1 : Nat)) ∧
    cntK none ((LogLatest.new [115] none sampleReplicaConfig 0).update
      [evN1, evN2]).storedEvents ≤ 1 ∧
    ((LogLatest.new [115] none sampleReplicaConfig 0).update
      [evN1, evN2]).lookup none = survivorFrom none none [evN1, evN2]) :=
  ⟨by decide, C10_none_key (fun l => l.length) [115] none
    sampleReplicaConfig 0 [evN1, evN2] ⟨100, 1⟩ .put (by decide)⟩

end Zenoh
